import Mathlib

/-!
Verification of the digby embedded key/value store (Rust) against its
natural-language specification.

The development shallowly embeds the relevant parts of the source:

* byte-level models (pages as `List Nat` of byte values, all integers
  little-endian) for the tuple serialization and the slotted tree-leaf page
  (`src/tuple.rs`, `src/tree_leaf_page.rs`), used by the claims about the
  on-page layout and the public put/get round trip;
* parsed-content models (a page as the record of the fields its accessors
  expose) for the free-page tracker, the directory page, the overflow chain,
  the master pages, and the tree-walking handlers.  The source repository
  contains files from several snapshots whose page-number widths (u32/u64)
  and entry layouts differ between files; following the specification's own
  instruction to pick one layout, page numbers are modelled as `Nat` and a
  directory entry's serialized size is the one the directory page itself
  declares and parses (`child page number (4 bytes) | key length (1 byte) |
  key bytes`).  Every function body is translated statement by statement from
  the Rust source named in its doc comment; panics (`assert!`, out-of-range
  slicing, arithmetic underflow) are modelled by `Option`.
-/

namespace Digby

/-- Little-endian byte encoding: `leBytes k n` is `n.to_le_bytes()` truncated
or zero-padded to `k` bytes, matching Rust's fixed-width `to_le_bytes`. -/
def leBytes : Nat → Nat → List Nat
  | 0, _ => []
  | k + 1, n => n % 256 :: leBytes k (n / 256)

/-- Little-endian byte decoding, the inverse of `leBytes` on in-range input. -/
def fromLE : List Nat → Nat
  | [] => 0
  | b :: bs => b % 256 + 256 * fromLE bs

theorem leBytes_length (k n : Nat) : (leBytes k n).length = k := by
  induction k generalizing n with
  | zero => rfl
  | succ k ih => simp [leBytes, ih]

theorem fromLE_leBytes (k n : Nat) (h : n < 256 ^ k) : fromLE (leBytes k n) = n := by
  induction k generalizing n with
  | zero => simp [leBytes, fromLE, Nat.lt_one_iff.mp (by simpa using h)]
  | succ k ih =>
      have hdiv : n / 256 < 256 ^ k := by
        have h2 : n < 256 * 256 ^ k := by
          simpa [Nat.pow_succ, Nat.mul_comm] using h
        exact Nat.div_lt_of_lt_mul (by simpa [Nat.mul_comm] using h2)
      simp only [leBytes, fromLE, ih _ hdiv, Nat.mod_mod]
      exact Nat.mod_add_div n 256

/-- Overwrite `data.length` bytes of `page` starting at byte offset `off`
(the model of `copy_from_slice` / cursor writes into a page buffer). -/
def writeAt (page : List Nat) (off : Nat) (data : List Nat) : List Nat :=
  page.take off ++ data ++ page.drop (off + data.length)

/-- Read `len` bytes of `page` starting at offset `off` (slice `page[off..off+len]`). -/
def readAt (page : List Nat) (off len : Nat) : List Nat :=
  (page.drop off).take len

/-- Read a little-endian `u16` at byte offset `off`. -/
def readU16 (page : List Nat) (off : Nat) : Nat :=
  fromLE (readAt page off 2)

/-- Read a single byte (`read_u8`) at offset `off`. -/
def readU8 (page : List Nat) (off : Nat) : Nat :=
  fromLE (readAt page off 1)

/-- Bytes of a `VersionHolder` (`src/version_holder.rs`): the version in the
low seven little-endian bytes and the flags byte last. -/
def vhBytes (flags version : Nat) : List Nat :=
  leBytes 7 version ++ [flags % 256]

/-! ### Tuple serialization, `src/tuple.rs`

`Tuple::new` / `Tuple::new_with_overflow` produce
`u16 key_len | u16 value_len | 8-byte version holder | key | value`;
the accessors re-read those fields from the serialized bytes. -/

/-- Serialized bytes of `Tuple::new_with_overflow(key, value, version, overflow)`
(`Tuple::new` is the `overflow = 0` case). -/
def tupleNewBytes (key value : List Nat) (version overflow : Nat) : List Nat :=
  leBytes 2 key.length ++ leBytes 2 value.length ++ vhBytes overflow version
    ++ key ++ value

/-- Key length of a serialized tuple: `u16` at offset 0 (`Tuple::get_key`). -/
def tupleKeyLen (s : List Nat) : Nat :=
  readU16 s 0

/-- Key bytes of a serialized tuple: `serialized[12 .. 12 + key_len]`. -/
def tupleKey (s : List Nat) : List Nat :=
  readAt s 12 (tupleKeyLen s)

/-- Value bytes of a serialized tuple: `serialized[12 + key_len ..]`
(`Tuple::get_value`; note the upper end is the end of the byte buffer). -/
def tupleValue (s : List Nat) : List Nat :=
  s.drop (12 + tupleKeyLen s)

/-- Version of a serialized tuple: low seven bytes of the version holder at
offset 4 (`Tuple::get_version`). -/
def tupleVersion (s : List Nat) : Nat :=
  fromLE (readAt s 4 7)

/-- Overflow tag of a serialized tuple: flags byte of the version holder,
byte 11 (`Tuple::get_overflow`). -/
def tupleOverflow (s : List Nat) : Nat :=
  readU8 s 11

/-! ### The slotted tree-leaf page, `src/tree_leaf_page.rs`

A page is a `List Nat` of `pageSize` byte values.  Header (20 bytes):
page number (8) | version holder (8) | entries (u16 at 16) | free space
(u16 at 18).  Tuples grow down from byte 20, the slot index (2-byte offsets)
grows up from the end.  Panicking paths (`assert!`, out-of-range slices)
return `none`. -/

/-- `TreeLeafPage::new`: a zeroed page with type byte `TreeLeaf = 3`, the page
number, zero entries and `page_size - 20` free space. -/
def leafNewPage (pageSize pageNo : Nat) : List Nat :=
  let p0 := List.replicate pageSize 0
  let p1 := writeAt p0 15 [3]
  let p2 := writeAt p1 0 (leBytes 8 pageNo)
  let p3 := writeAt p2 16 (leBytes 2 0)
  writeAt p3 18 (leBytes 2 (pageSize - 20))

/-- Entry count of a leaf page (`get_entries`, u16 at offset 16). -/
def leafEntries (p : List Nat) : Nat :=
  readU16 p 16

/-- Free-space field of a leaf page (`get_free_space`, u16 at offset 18). -/
def leafFreeSpace (p : List Nat) : Nat :=
  readU16 p 18

/-- `TreeLeafPage::can_fit`: `free_space >= size + 2`. -/
def leafCanFit (p : List Nat) (size : Nat) : Bool :=
  size + 2 ≤ leafFreeSpace p

/-- `TreeLeafPage::add_tuple`: copy the serialized tuple at the end of the
used region, append its offset to the slot index, bump `entries`, shrink
`free_space` by the tuple size plus two. `none` models the `can_fit` assert. -/
def leafAddTuple (pageSize : Nat) (p t : List Nat) : Option (List Nat) :=
  if leafCanFit p t.length then
    let entriesSize := leafEntries p * 2
    let off := pageSize - (leafFreeSpace p + entriesSize)
    let p1 := writeAt p off t
    let p2 := writeAt p1 (pageSize - (entriesSize + 2)) (leBytes 2 off)
    let p3 := writeAt p2 16 (leBytes 2 (leafEntries p + 1))
    some (writeAt p3 18 (leBytes 2 (leafFreeSpace p - (t.length + 2))))
  else none

/-- `TreeLeafPage::get_tuple_index`: read the slot offset for `index`, then
parse the tuple size as `u8 key_len` at the tuple's first byte plus `u16
value_len` at the next two bytes plus 11 header bytes, and slice that many
bytes.  (`Tuple::new` wrote `u16 key_len | u16 value_len | 8-byte version
holder`, a 12-byte header.)  `none` models the index assert and a slice
reaching past the page. -/
def leafGetTupleIndex (pageSize : Nat) (p : List Nat) (i : Nat) :
    Option (List Nat) :=
  if i < leafEntries p then
    let tupOff := readU16 p (pageSize - (i * 2 + 2))
    let keyLen := readU8 p tupOff
    let valueLen := readU16 p (tupOff + 1)
    let size := keyLen + valueLen + 8 + 2 + 1
    if tupOff + size ≤ pageSize then some (readAt p tupOff size) else none
  else none

/-- `TreeLeafPage::get_all_tuples`: tuples at indices `0..entries`. -/
def leafGetAllTuples (pageSize : Nat) (p : List Nat) : Option (List (List Nat)) :=
  (List.range (leafEntries p)).mapM (leafGetTupleIndex pageSize p)

/-- Rust `Vec<u8>` comparison (`<`): lexicographic on bytes, a strict prefix
ordering below its extensions. -/
def bLt : List Nat → List Nat → Bool
  | _, [] => false
  | [], _ :: _ => true
  | a :: as, b :: bs => if a < b then true else if b < a then false else bLt as bs

/-- Comparator passed to `sort_by` in `build_sorted_tuples`: ascending by key. -/
def tupleLe (a b : List Nat) : Bool :=
  ! bLt (tupleKey b) (tupleKey a)

/-- Stable insertion of `a` into a sorted list: `a` goes after every element
`b` with `le b a`, so later elements land after earlier equal ones. -/
def insertLe (le : α → α → Bool) (a : α) : List α → List α
  | [] => [a]
  | b :: bs => if le b a then b :: insertLe le a bs else a :: b :: bs

/-- Stable ascending sort (Rust's `sort_by` is a stable sort; a stable sort's
output is determined by the comparator, so insertion sort computes it). -/
def sortByLe (le : α → α → Bool) (l : List α) : List α :=
  l.foldl (fun acc a => insertLe le a acc) []

/-- `TreeLeafPage::store_tuple`: gather all tuples, drop any with the same
key, add the new tuple, sort by key, then clear the page and re-add them all.
`none` models the `can_fit` asserts. -/
def leafStoreTuple (pageSize : Nat) (p t : List Nat) : Option (List Nat) :=
  if leafCanFit p t.length then do
    let all ← leafGetAllTuples pageSize p
    let kept := all.filter (fun s => tupleKey s ≠ tupleKey t)
    let sorted := sortByLe tupleLe (kept ++ [t])
    let cleared := writeAt (writeAt p 16 (leBytes 2 0)) 18 (leBytes 2 (pageSize - 20))
    sorted.foldlM (leafAddTuple pageSize) cleared
  else none

/-- `TreeLeafPage::get_tuple`: binary search over the slot array with `i32`
bounds; returns the tuple whose key equals `key`, if the search lands on one.
The loop is given `fuel` iterations (`none` when it runs out). -/
def leafGetTupleGo (pageSize : Nat) (p key : List Nat) :
    Nat → Int → Int → Option (Option (List Nat))
  | 0, _, _ => none
  | fuel + 1, left, right =>
    if left ≤ right then
      let mid := left + (right - left) / 2
      match leafGetTupleIndex pageSize p mid.toNat with
      | none => none
      | some t =>
        if tupleKey t = key then some (some t)
        else if bLt (tupleKey t) key then leafGetTupleGo pageSize p key fuel (mid + 1) right
        else leafGetTupleGo pageSize p key fuel left (mid - 1)
    else some none

/-- `TreeLeafPage::get_tuple` with enough fuel for any terminating search. -/
def leafGetTuple (pageSize : Nat) (p key : List Nat) : Option (Option (List Nat)) :=
  leafGetTupleGo pageSize p key (leafEntries p + 1) 0 (Int.ofNat (leafEntries p) - 1)

/-- `TreeLeafPage::delete_key`: look the key up; if absent return `none`
(modelled as `some none`: the call succeeds finding nothing), else rebuild
the page from all tuples whose key differs and return the deleted tuple. -/
def leafDeleteKey (pageSize : Nat) (p key : List Nat) :
    Option (Option (List Nat) × List Nat) := do
  let found ← leafGetTuple pageSize p key
  match found with
  | none => some (none, p)
  | some t => do
    let all ← leafGetAllTuples pageSize p
    let kept := all.filter (fun s => tupleKey s ≠ key)
    let cleared := writeAt (writeAt p 16 (leBytes 2 0)) 18 (leBytes 2 (pageSize - 20))
    let p' ← kept.foldlM (leafAddTuple pageSize) cleared
    some (some t, p')

/-! ### The public put/get pipeline on a fresh database, `src/db.rs`

`Db::new_with_page_size(path, None, CompressorType::None, 512)` initialises
the tree root as the empty leaf at page 5 (`init_db_file`); the checksum
block layer gives `page_size = 512 - 4 = 508`.  For a key of at most 255
bytes and a value below the 1024-byte threshold,
`TupleProcessor::generate_tuple` emits `Tuple::new(key, value, version)`
(overflow tag 0), `StoreTupleProcessor::store_tuple` takes the
root-is-a-leaf branch, and `LeafPageHandler::add_tuple` takes its `can_fit`
branch, i.e. `TreeLeafPage::store_tuple` on the root leaf.  `Db::get`
descends with `StoreTupleProcessor::get_tuple` (a binary search over the
leaf) and, the overflow tag being 0, `Db::get_tuple_value` returns the
tuple's value bytes unchanged. -/

/-- Root leaf page after `put(key, value)` on a fresh database (version 1 is
the first commit's version). -/
def dbPutFresh (pageSize : Nat) (key value : List Nat) : Option (List Nat) :=
  leafStoreTuple pageSize (leafNewPage pageSize 5) (tupleNewBytes key value 1 0)

/-- Result of `get(key)` when the tree root is the leaf `page` and the found
tuple's overflow tag is 0: the value bytes of the tuple the binary search
returns. -/
def dbGetFresh (pageSize : Nat) (page key : List Nat) : Option (Option (List Nat)) :=
  (leafGetTuple pageSize page key).map (fun r => r.map tupleValue)

/-- Byte string `the_key`. -/
def theKeyBytes : List Nat := [116, 104, 101, 95, 107, 101, 121]

set_option maxRecDepth 40000

/-- C1.  The round trip at the public interface fails on the code: on a fresh
512-byte-block database, after `put("the_key", [118])`, `get("the_key")`
returns the stored value followed by 254 junk zero bytes rather than exactly
the stored value.  (`TreeLeafPage::get_tuple_index` parses the slot's tuple
with a 1-byte key length and a `u16` value length at offset 1, while
`Tuple::new` serialized `u16 key_len | u16 value_len`, so the read-back
tuple's byte size is wrong and its value keeps trailing page bytes.) -/
theorem put_get_round_trip_failure :
    (dbPutFresh 508 theKeyBytes [118]).bind (fun p => dbGetFresh 508 p theKeyBytes)
        = some (some ([118] ++ List.replicate 254 0)) ∧
      (dbPutFresh 508 theKeyBytes [118]).bind (fun p => dbGetFresh 508 p theKeyBytes)
        ≠ some (some [118]) :=
  ⟨by decide, by decide⟩

/-- C2.  In-tree tuple serialization: `Tuple::new` writes
`u16 key_len | u16 value_len | 8-byte version holder | key | value`, but
reading a stored tuple back from a leaf page by slot index does not return
the stored tuple.  Storing `Tuple::new([107,101,121], [99], 1)` (key length
3, well below 255) in a fresh 508-byte leaf page and reading slot 0 back
yields a tuple with the right key, version and overflow tag whose byte size
is 270 instead of 16 and whose value is not the stored value. -/
theorem tuple_slot_readback_failure :
    (((dbPutFresh 508 [107, 101, 121] [99]).bind
          (fun p => leafGetTupleIndex 508 p 0)).map
        (fun t => (tupleKey t, tupleVersion t, tupleOverflow t, t.length))
        = some ([107, 101, 121], 1, 0, 270)) ∧
      ((dbPutFresh 508 [107, 101, 121] [99]).bind
          (fun p => leafGetTupleIndex 508 p 0)).map tupleValue ≠ some [99] :=
  ⟨by decide, by decide⟩

/-! ### Order lemmas for the byte-vector comparison `bLt` -/

theorem bLt_irrefl (a : List Nat) : bLt a a = false := by
  induction a with
  | nil => rfl
  | cons x xs ih => simp [bLt, ih]

theorem bLt_asymm {a b : List Nat} (h : bLt a b = true) : bLt b a = false := by
  induction a generalizing b with
  | nil =>
      cases b with
      | nil => simpa [bLt] using h
      | cons y ys => simp [bLt]
  | cons x xs ih =>
      cases b with
      | nil => simp [bLt] at h
      | cons y ys =>
          by_cases hxy : x < y
          · simp [bLt, hxy, Nat.lt_asymm hxy, Nat.ne_of_gt hxy]
          · by_cases hyx : y < x
            · simp [bLt, hxy, hyx] at h
            · have hxy' : x = y := Nat.le_antisymm (Nat.le_of_not_lt hyx) (Nat.le_of_not_lt hxy)
              subst hxy'
              simp only [bLt, if_neg hxy, if_neg hyx] at h ⊢
              simp [Nat.lt_irrefl, ih h]

theorem bLt_total {a b : List Nat} (h1 : bLt a b = false) (h2 : bLt b a = false) : a = b := by
  induction a generalizing b with
  | nil =>
      cases b with
      | nil => rfl
      | cons y ys => simp [bLt] at h1
  | cons x xs ih =>
      cases b with
      | nil => simp [bLt] at h2
      | cons y ys =>
          by_cases hxy : x < y
          · simp [bLt, hxy] at h1
          · by_cases hyx : y < x
            · simp [bLt, hyx] at h2
            · have hxy' : x = y := Nat.le_antisymm (Nat.le_of_not_lt hyx) (Nat.le_of_not_lt hxy)
              subst hxy'
              simp only [bLt, if_neg hxy, if_neg hyx] at h1 h2
              rw [ih h1 h2]

theorem bLt_trans {a b c : List Nat} (h1 : bLt a b = true) (h2 : bLt b c = true) :
    bLt a c = true := by
  induction a generalizing b c with
  | nil =>
      cases c with
      | nil =>
          cases b with
          | nil => simpa using h1
          | cons y ys => simp [bLt] at h2
      | cons z zs => simp [bLt]
  | cons x xs ih =>
      cases b with
      | nil => simp [bLt] at h1
      | cons y ys =>
          cases c with
          | nil => simp [bLt] at h2
          | cons z zs =>
              by_cases hxy : x < y <;> by_cases hyz : y < z
              · simp [bLt, Nat.lt_trans hxy hyz]
              · by_cases hzy : z < y
                · simp [bLt, hyz, hzy] at h2
                · have : y = z := Nat.le_antisymm (Nat.le_of_not_lt hzy) (Nat.le_of_not_lt hyz)
                  subst this
                  simp [bLt, hxy]
              · by_cases hyx : y < x
                · simp [bLt, hxy, hyx] at h1
                · have : x = y := Nat.le_antisymm (Nat.le_of_not_lt hyx) (Nat.le_of_not_lt hxy)
                  subst this
                  simp [bLt, hyz]
              · by_cases hyx : y < x
                · simp [bLt, hxy, hyx] at h1
                · have hxy' : x = y := Nat.le_antisymm (Nat.le_of_not_lt hyx) (Nat.le_of_not_lt hxy)
                  subst hxy'
                  by_cases hzy : z < x
                  · simp [bLt, hyz, hzy] at h2
                  · have : x = z := Nat.le_antisymm (Nat.le_of_not_lt hzy) (Nat.le_of_not_lt hyz)
                    subst this
                    simp only [bLt, if_neg hxy, if_neg hyz] at h1 h2 ⊢
                    exact ih h1 h2

/-! ### The B+-tree directory page, `src/tree_dir_page.rs`

The page is modelled by its parsed content: the left child page number, the
entries in slot-index order, and the free-space header field.  An entry's
serialized size follows the entry format the page itself declares and parses
in `get_dir_entry_index` (`child page number (4 bytes) | key length (1 byte)
| key bytes`), so `get_byte_size` is `key length + 5`. -/

/-- One directory entry: a boundary key and the child page that holds keys
at or above it (`src/tree_dir_entry.rs`). -/
structure DirEntry where
  key : List Nat
  child : Nat
deriving DecidableEq, Repr

/-- Serialized byte size of a directory entry in the page's entry format. -/
def dirEntrySize (e : DirEntry) : Nat :=
  e.key.length + 5

/-- Parsed content of a `TreeDirPage`: header fields plus the entry list. -/
structure DirPage where
  pageNo : Nat
  version : Nat
  left : Nat
  entries : List DirEntry
  freeSpace : Nat
  pageSize : Nat
deriving DecidableEq, Repr

/-- `TreeDirPage::new`: empty page, `free_space = page_size - 20`, left child 0. -/
def dirNewPage (pageSize pageNo version : Nat) : DirPage :=
  { pageNo := pageNo, version := version, left := 0, entries := [],
    freeSpace := pageSize - 20, pageSize := pageSize }

/-- `TreeDirPage::append_tree_dir_entry`: push the entry after the used
region and charge its size plus a 2-byte slot against `free_space`. -/
def dirAppendEntry (d : DirPage) (e : DirEntry) : DirPage :=
  { d with entries := d.entries ++ [e],
           freeSpace := d.freeSpace - (dirEntrySize e + 2) }

/-- `TreeDirPage::add_split_entries_new_page`: on an empty page, the first
entry's child becomes `left_child` (its key is not recorded) and the other
entries are appended in order.  `none` models the asserts (`entries == 0`,
nonempty input). -/
def dirAddSplitEntriesNewPage (d : DirPage) (es : List DirEntry) : Option DirPage :=
  if d.entries = [] then
    match es with
    | [] => none
    | first :: rest =>
        some (rest.foldl dirAppendEntry { d with left := first.child })
  else none

/-- Actual byte count of the contiguous free region of a directory page with
the stated layout: page size minus the 20-byte header minus, per entry, its
serialized bytes and its 2-byte slot.  This is the quantity the claim says
the `free_space` header always equals. -/
def dirActualFreeSpace (d : DirPage) : Nat :=
  d.pageSize - 20 - ((d.entries.map (fun e => dirEntrySize e + 2)).foldl (· + ·) 0)

/-- `TreeDirPage::get_right_half_entries`: remove the upper half
`(entries+1)/2 ..` of the entries and return them; the loop overwrites
`size_removed` with each removed entry's size instead of accumulating, so
only the last removed entry's size (plus 2) is credited back to
`free_space`. -/
def dirGetRightHalfEntries (d : DirPage) : DirPage × List DirEntry :=
  let start := (d.entries.length + 1) / 2
  let removed := d.entries.drop start
  let sizeRemoved := match removed.getLast? with
    | none => 0
    | some e => dirEntrySize e + 2
  ({ d with entries := d.entries.take start,
            freeSpace := d.freeSpace + sizeRemoved }, removed)

/-- C5.  The free-space bookkeeping invariant fails on directory-page splits:
build a directory page from five entries with one-byte keys (so `free_space`
equals the actual free byte count, 4044 of 4096), then take the right half.
Two entries (16 bytes with their slots) leave the page but `free_space` is
credited only 8, so it reads 4052 while the actual free region is 4060. -/
theorem dir_split_free_space_failure :
    (dirAddSplitEntriesNewPage (dirNewPage 4096 3 567)
        [⟨[97], 10⟩, ⟨[98], 11⟩, ⟨[99], 12⟩, ⟨[100], 13⟩, ⟨[101], 14⟩]).map
      (fun d =>
        (decide (d.freeSpace = dirActualFreeSpace d),
          (dirGetRightHalfEntries d).1.freeSpace,
          dirActualFreeSpace (dirGetRightHalfEntries d).1))
      = some (true, 4052, 4060) :=
  by decide

/-! ### Master pages and the commit tail, `src/db_master_page.rs`, `src/db.rs`

A master page is modelled by the fields its accessors expose.  `set_version`
goes through `VersionHolder::set_version`, whose assert
`version < 2^56 - 1` is modelled by `Option`. -/

/-- Parsed content of a `DbMasterPage`. -/
structure MasterPage where
  pageNo : Nat
  version : Nat
  treeRoot : Nat
  tableDir : Nat
  freeDir : Nat
deriving DecidableEq, Repr

/-- The two master slots, pages 1 and 2. -/
structure Masters where
  m1 : MasterPage
  m2 : MasterPage
deriving DecidableEq, Repr

/-- `Db::get_master_page`: the master with the larger version (page 2 on a
tie). -/
def getMasterPage (s : Masters) : MasterPage :=
  if s.m2.version < s.m1.version then s.m1 else s.m2

/-- `DbMasterPage::flip_page_number`: 1 becomes 2, anything else becomes 1. -/
def flipPageNumber (m : MasterPage) : MasterPage :=
  { m with pageNo := if m.pageNo = 1 then 2 else 1 }

/-- `VersionHolder::set_version` on a master-page copy: the assert rejects
versions that do not fit in seven bytes. -/
def masterSetVersion (m : MasterPage) (v : Nat) : Option MasterPage :=
  if v < 2 ^ 56 - 1 then some { m with version := v } else none

/-- Writing a master-page copy back through the page cache: the page lands in
the slot its page number names. -/
def putMasterPage (s : Masters) (m : MasterPage) : Masters :=
  if m.pageNo = 1 then { s with m1 := m }
  else if m.pageNo = 2 then { s with m2 := m } else s

/-- Commit tail shared by `Db::put` and `Db::delete` (lines 181-230 and
107-131 of `src/db.rs`): read the current master, take `new_version =
version + 1`, update the tree-root and free-dir pointers on the copy, stamp
the new version, flip the page number to the non-current slot, and write. -/
def commitTreeRoot (s : Masters) (newTreeRoot newFreeDir : Nat) : Option Masters := do
  let m := getMasterPage s
  let newVersion := m.version + 1
  let m1 := { m with freeDir := newFreeDir, treeRoot := newTreeRoot }
  let m2 ← masterSetVersion m1 newVersion
  some (putMasterPage s (flipPageNumber m2))

/-- Commit tail of `Db::create_table` and `Db::put_table`: like
`commitTreeRoot` but updating the table-directory pointer. -/
def commitTableDir (s : Masters) (newTableDir newFreeDir : Nat) : Option Masters := do
  let m := getMasterPage s
  let newVersion := m.version + 1
  let m1 := { m with freeDir := newFreeDir, tableDir := newTableDir }
  let m2 ← masterSetVersion m1 newVersion
  some (putMasterPage s (flipPageNumber m2))

/-- `Db::delete`: when the key is absent the function returns before any
write; when a key was deleted it runs the `commitTreeRoot` tail. -/
def deleteCommit (s : Masters) (deleted : Bool) (newTreeRoot newFreeDir : Nat) :
    Option Masters :=
  if deleted then commitTreeRoot s newTreeRoot newFreeDir else some s

/-- `Db::put_table`: when the table is missing, `create_table` commits first
and the put commits on the resulting state; otherwise one commit. -/
def putTableCommit (s : Masters) (tableExists : Bool)
    (n1 n2 n3 n4 : Nat) : Option Masters :=
  if tableExists then commitTableDir s n1 n2
  else do
    let s' ← commitTableDir s n1 n2
    commitTableDir s' n3 n4

theorem flipPageNumber_mem (m : MasterPage) :
    (flipPageNumber m).pageNo = 1 ∨ (flipPageNumber m).pageNo = 2 := by
  unfold flipPageNumber
  by_cases h : m.pageNo = 1 <;> simp [h]

theorem putMasterPage_wf (s : Masters) (m : MasterPage)
    (h1 : s.m1.pageNo = 1) (h2 : s.m2.pageNo = 2)
    (hm : m.pageNo = 1 ∨ m.pageNo = 2) :
    (putMasterPage s m).m1.pageNo = 1 ∧ (putMasterPage s m).m2.pageNo = 2 := by
  rcases hm with hm | hm <;> simp [putMasterPage, hm, h1, h2]

theorem getMasterPage_put_flip (s : Masters) (m : MasterPage)
    (h1 : s.m1.pageNo = 1) (h2 : s.m2.pageNo = 2)
    (hv : (getMasterPage s).version < m.version) (hp : m.pageNo = (getMasterPage s).pageNo) :
    getMasterPage (putMasterPage s (flipPageNumber m)) = flipPageNumber m ∧
      (flipPageNumber m).pageNo ≠ (getMasterPage s).pageNo := by
  unfold getMasterPage at *
  by_cases hc : s.m2.version < s.m1.version <;>
    simp only [hc, if_pos, if_neg, if_true, if_false] at hv hp ⊢ <;>
    unfold flipPageNumber putMasterPage <;>
    simp [hp, h1, h2] <;> omega

theorem commitTreeRoot_spec (s : Masters)
    (h1 : s.m1.pageNo = 1) (h2 : s.m2.pageNo = 2)
    (hb : (getMasterPage s).version + 1 < 2 ^ 56 - 1) (r f : Nat) :
    ∃ s', commitTreeRoot s r f = some s' ∧
      (getMasterPage s').version = (getMasterPage s).version + 1 ∧
      (getMasterPage s').pageNo ≠ (getMasterPage s).pageNo ∧
      s'.m1.pageNo = 1 ∧ s'.m2.pageNo = 2 := by
  have flip := getMasterPage_put_flip s
    { getMasterPage s with
      freeDir := f, treeRoot := r, version := (getMasterPage s).version + 1 } h1 h2 (by simp) (by simp)
  have hb' : (getMasterPage s).version + 1 < 72057594037927935 := by
    have hh := hb; norm_num at hh; exact hh
  refine ⟨putMasterPage s (flipPageNumber { getMasterPage s with
      freeDir := f, treeRoot := r, version := (getMasterPage s).version + 1 }),
    by simp [commitTreeRoot, masterSetVersion, hb'], ?_, ?_, ?_, ?_⟩
  · rw [flip.1]; simp [flipPageNumber]
  · rw [flip.1]; exact flip.2
  · exact (putMasterPage_wf s _ h1 h2 (flipPageNumber_mem _)).1
  · exact (putMasterPage_wf s _ h1 h2 (flipPageNumber_mem _)).2

theorem commitTableDir_spec (s : Masters)
    (h1 : s.m1.pageNo = 1) (h2 : s.m2.pageNo = 2)
    (hb : (getMasterPage s).version + 1 < 2 ^ 56 - 1) (t f : Nat) :
    ∃ s', commitTableDir s t f = some s' ∧
      (getMasterPage s').version = (getMasterPage s).version + 1 ∧
      (getMasterPage s').pageNo ≠ (getMasterPage s).pageNo ∧
      s'.m1.pageNo = 1 ∧ s'.m2.pageNo = 2 := by
  have flip := getMasterPage_put_flip s
    { getMasterPage s with
      freeDir := f, tableDir := t, version := (getMasterPage s).version + 1 } h1 h2 (by simp) (by simp)
  have hb' : (getMasterPage s).version + 1 < 72057594037927935 := by
    have hh := hb; norm_num at hh; exact hh
  refine ⟨putMasterPage s (flipPageNumber { getMasterPage s with
      freeDir := f, tableDir := t, version := (getMasterPage s).version + 1 }),
    by simp [commitTableDir, masterSetVersion, hb'], ?_, ?_, ?_, ?_⟩
  · rw [flip.1]; simp [flipPageNumber]
  · rw [flip.1]; exact flip.2
  · exact (putMasterPage_wf s _ h1 h2 (flipPageNumber_mem _)).1
  · exact (putMasterPage_wf s _ h1 h2 (flipPageNumber_mem _)).2

/-- C4.  Version monotonicity: every successful mutation (`put`, `delete` of
a present key, `create_table`, `put_table`) writes `new_version = version of
the current master + 1` to the other master slot, and afterwards the current
master (the one of pages 1 and 2 with the larger version) has a strictly
larger version than before.  Hypotheses: the masters sit in their slots and
the version still fits in seven bytes after the at most two commits a
`put_table` performs. -/
theorem version_monotonic (s : Masters)
    (h1 : s.m1.pageNo = 1) (h2 : s.m2.pageNo = 2)
    (hb : (getMasterPage s).version + 2 < 2 ^ 56 - 1) :
    (∀ r f, ∃ s', commitTreeRoot s r f = some s' ∧
        (getMasterPage s').version = (getMasterPage s).version + 1 ∧
        (getMasterPage s').pageNo ≠ (getMasterPage s).pageNo) ∧
      (∀ r f, deleteCommit s true r f = commitTreeRoot s r f) ∧
      (∀ t f, ∃ s', commitTableDir s t f = some s' ∧
        (getMasterPage s').version = (getMasterPage s).version + 1 ∧
        (getMasterPage s').pageNo ≠ (getMasterPage s).pageNo) ∧
      (∀ ex n1 n2 n3 n4, ∃ s', putTableCommit s ex n1 n2 n3 n4 = some s' ∧
        (getMasterPage s).version < (getMasterPage s').version) := by
  refine ⟨?_, fun r f => rfl, ?_, ?_⟩
  · intro r f
    obtain ⟨s', e, hv, hp, _, _⟩ := commitTreeRoot_spec s h1 h2 (by omega) r f
    exact ⟨s', e, hv, hp⟩
  · intro t f
    obtain ⟨s', e, hv, hp, _, _⟩ := commitTableDir_spec s h1 h2 (by omega) t f
    exact ⟨s', e, hv, hp⟩
  · intro ex n1 n2 n3 n4
    by_cases he : ex
    · obtain ⟨s', e, hv, _⟩ := commitTableDir_spec s h1 h2 (by omega) n1 n2
      exact ⟨s', by simp [putTableCommit, he, e], by omega⟩
    · obtain ⟨s', e, hv, _, h1', h2'⟩ := commitTableDir_spec s h1 h2 (by omega) n1 n2
      obtain ⟨s'', e2, hv2, _⟩ := commitTableDir_spec s' h1' h2' (by omega) n3 n4
      exact ⟨s'', by simp [putTableCommit, he, e, e2], by omega⟩

/-- Witness for C4 at a concrete fresh-database state (masters at versions 0
and 1, as `init_db_file` writes them). -/
theorem version_monotonic_witness :
    ∃ s', commitTreeRoot
        ⟨⟨1, 0, 5, 4, 3⟩, ⟨2, 1, 5, 4, 3⟩⟩ 6 7 = some s' ∧
      (getMasterPage s').version =
        (getMasterPage ⟨⟨1, 0, 5, 4, 3⟩, ⟨2, 1, 5, 4, 3⟩⟩).version + 1 ∧
      (getMasterPage s').pageNo ≠
        (getMasterPage ⟨⟨1, 0, 5, 4, 3⟩, ⟨2, 1, 5, 4, 3⟩⟩).pageNo :=
  (version_monotonic ⟨⟨1, 0, 5, 4, 3⟩, ⟨2, 1, 5, 4, 3⟩⟩ (by decide) (by decide)
    (by decide)).1 6 7

/-! ### Opening an existing database, `Db::check_db_integrity` (`src/db.rs`)

The disk is modelled by the values the checked pages expose: the root page's
sanity and compression bytes, the two master versions, and the versions of
the pages the current master's free-dir and tree-root pointers reference.
The integrity check never reads the tree-root page.  Any panic (`panic!`,
failed `expect`, failed `assert!`) is `false`; `Ok(())` is `true`.
Sanity: 0 = xxh32 checksum, 1 = AES-128-GCM.  Compression: 0 = none,
1 = LZ4, anything else fails `CompressorType::try_from`. -/

/-- What the pages read during `check_db_integrity` expose. -/
structure OpenDisk where
  sanityStored : Nat
  compressionStored : Nat
  master1Version : Nat
  master2Version : Nat
  freeDirVersion : Nat
  treeRootVersion : Nat
deriving DecidableEq, Repr

/-- `Db::check_db_integrity`: verify the stored sanity type and compression
type against the requested ones, pick the master with the larger version,
and assert that the free-page-directory page's version does not exceed it. -/
def checkDbIntegrity (d : OpenDisk) (sanityReq compressionReq : Nat) : Bool :=
  if d.sanityStored ≠ sanityReq then false
  else if d.compressionStored ≠ 0 ∧ d.compressionStored ≠ 1 then false
  else if d.compressionStored ≠ compressionReq then false
  else
    let currentVersion := if d.master2Version < d.master1Version
      then d.master1Version else d.master2Version
    decide (d.freeDirVersion ≤ currentVersion)

/-- Counterexample to C6 as stated: a database whose tree-root page carries
version 100 while the current master has version 6 passes the open-time
integrity check, although the claim says the open fails when the tree-root
version exceeds the master's. -/
theorem open_check_ignores_tree_root :
    checkDbIntegrity ⟨0, 0, 5, 6, 6, 100⟩ 0 0 = true ∧
      ¬ (100 ≤ (⟨0, 0, 5, 6, 6, 100⟩ : OpenDisk).master2Version) :=
  ⟨by decide, by decide⟩

/-- C6 (amended).  When opening an existing database the code verifies, after
sanity- and compression-type checks, only that the free-page-directory page's
version is at most the current master's version (the larger of the two
master versions); the tree-root page's version is not read and not checked.
The check succeeds exactly when the type bytes match and the free-dir
version bound holds, whatever the tree-root version is. -/
theorem open_check_verifies_free_dir_only (d : OpenDisk) (sReq cReq : Nat) :
    checkDbIntegrity d sReq cReq = true ↔
      (d.sanityStored = sReq ∧ (d.compressionStored = 0 ∨ d.compressionStored = 1) ∧
        d.compressionStored = cReq ∧
        d.freeDirVersion ≤ max d.master1Version d.master2Version) := by
  unfold checkDbIntegrity
  by_cases h1 : d.sanityStored = sReq <;>
    by_cases h2 : d.compressionStored = 0 ∨ d.compressionStored = 1 <;>
    by_cases h3 : d.compressionStored = cReq <;>
    simp_all [Nat.max_def] <;> first
      | omega
      | (constructor <;> intro h <;>
          first
            | (split at h <;> split <;> omega)
            | omega)
      | (intro h; omega)
      | tauto

/-! ### Overflow tuples and the overflow chain,
`src/overflow_tuple.rs`, `src/overflow_page.rs`, `src/overflow_page_handler.rs`

An overflow tuple serializes as `u32 key_len | u32 value_len | 8-byte
version holder | key | value`.  An overflow page is modelled by its parsed
content: page number, version, `next` pointer, and the used bytes
(`get_tuple_bytes`, the first `used_size` body bytes).  The handler chunks
the serialized tuple into segments of `page_size - 18` bytes, written
tail-first; `cap` below is that segment capacity.  Free page numbers come
from the tracker, modelled as a stream `alloc : Nat -> Nat` of page
numbers. -/

/-- Serialized bytes of `OverflowTuple::new` (before its asserts). -/
def ovSerialize (key value : List Nat) (version overflow : Nat) : List Nat :=
  leBytes 4 key.length ++ leBytes 4 value.length ++ vhBytes overflow version
    ++ key ++ value

/-- `OverflowTuple::new` with its asserts: key and value lengths below
`u32::MAX`, a non-`None` overflow tag, and a version that fits seven bytes
(`VersionHolder::new`). -/
def ovNew (key value : List Nat) (version overflow : Nat) : Option (List Nat) :=
  if key.length < 2 ^ 32 - 1 ∧ value.length < 2 ^ 32 - 1 ∧ overflow ≠ 0 ∧
      version < 2 ^ 56 - 1 then
    some (ovSerialize key value version overflow)
  else none

/-- Fields of an overflow tuple. -/
structure OvTuple where
  key : List Nat
  value : List Nat
  version : Nat
  overflow : Nat
deriving DecidableEq, Repr

/-- `OverflowTuple::from_bytes`: parse the `u32` lengths, the version holder,
then `read_exact` the key and value.  `none` models a failing read, an
unknown overflow byte (`try_from` unwrap) and the `overflow != None`
assert. -/
def ovFromBytes (bytes : List Nat) : Option OvTuple :=
  if 16 ≤ bytes.length then
    let klen := fromLE (readAt bytes 0 4)
    let vlen := fromLE (readAt bytes 4 4)
    let version := fromLE (readAt bytes 8 7)
    let flags := readU8 bytes 15
    if flags = 0 ∨ 5 < flags then none
    else if 16 + klen + vlen ≤ bytes.length then
      some ⟨readAt bytes 16 klen, readAt bytes (16 + klen) vlen, version, flags⟩
    else none
  else none

/-- Parsed content of an `OverflowPage`. -/
structure OvPage where
  pageNo : Nat
  version : Nat
  next : Nat
  data : List Nat
deriving DecidableEq, Repr

/-- Right-biased lookup over a write log: the page a number holds after all
the writes (`put_page` through the pass-through page cache). -/
def diskOf (writes : List (Nat × OvPage)) : Nat → Option OvPage :=
  fun n => writes.foldl (fun acc w => if w.1 = n then some w.2 else acc) none

/-- Loop body of `OverflowPageHandler::store_overflow_tuple`: allocate a
page, point its `next` at the previously written page, fill it with the last
`min(end, cap)` unconsumed bytes, and continue with the rest.  `fuel` bounds
the iterations (the Rust loop does not terminate when `cap = 0`). -/
def storeOvGo (cap ver : Nat) (alloc : Nat → Nat) (buffer : List Nat) :
    Nat → Nat → Nat → Nat → List (Nat × OvPage) →
    Option (Nat × Nat × List (Nat × OvPage))
  | 0, _, _, _, _ => none
  | fuel + 1, idx, endPos, previous, writes =>
    let pageNo := alloc idx
    let btw := if endPos < cap then endPos else cap
    let page : OvPage := ⟨pageNo, ver, previous, readAt buffer (endPos - btw) btw⟩
    let writes' := writes ++ [(pageNo, page)]
    if endPos - btw = 0 then some (pageNo, idx + 1, writes')
    else storeOvGo cap ver alloc buffer fuel (idx + 1) (endPos - btw) pageNo writes'

/-- `OverflowPageHandler::store_overflow_tuple`: write the serialized buffer
tail-first and return the head page number (the segment holding the
beginning of the tuple), the next allocation index, and the pages written. -/
def storeOverflowTuple (cap ver : Nat) (alloc : Nat → Nat) (buffer : List Nat) :
    Option (Nat × Nat × List (Nat × OvPage)) :=
  storeOvGo cap ver alloc buffer (buffer.length + 1) 0 buffer.length 0 []

/-- Chain walk of `OverflowPageHandler::get_overflow_tuple`: concatenate the
tuple bytes along the `next` links until a zero link. -/
def loadOvBytes (disk : Nat → Option OvPage) : Nat → Nat → Option (List Nat)
  | 0, _ => none
  | fuel + 1, p => do
    let page ← disk p
    if page.next = 0 then some page.data
    else (loadOvBytes disk fuel page.next).map (fun rest => page.data ++ rest)

/-- `OverflowPageHandler::get_overflow_tuple`: deserialize the concatenation
of the chain's segments. -/
def getOverflowTuple (disk : Nat → Option OvPage) (fuel head : Nat) : Option OvTuple :=
  (loadOvBytes disk fuel head).bind ovFromBytes

theorem foldl_disk_skip (l : List (Nat × OvPage)) (n : Nat) (acc : Option OvPage)
    (h : ∀ w ∈ l, w.1 ≠ n) :
    l.foldl (fun a w => if w.1 = n then some w.2 else a) acc = acc := by
  induction l generalizing acc with
  | nil => rfl
  | cons x xs ih =>
      have hx : x.1 ≠ n := h x (by simp)
      simp only [List.foldl_cons, if_neg hx]
      exact ih acc (fun w hw => h w (by simp [hw]))

theorem diskOf_agrees (ws : List (Nat × OvPage)) (hnd : (ws.map Prod.fst).Nodup) :
    ∀ w ∈ ws, diskOf ws w.1 = some w.2 := by
  intro w hw
  unfold diskOf
  induction ws with
  | nil => cases hw
  | cons x xs ih =>
      rcases List.mem_cons.mp hw with rfl | hw'
      · have hx : ∀ y ∈ xs, y.1 ≠ w.1 := by
          intro y hy
          have := (List.nodup_cons.mp hnd).1
          intro he
          exact this (he ▸ List.mem_map_of_mem Prod.fst hy)
        simp only [List.foldl_cons, if_pos rfl]
        exact foldl_disk_skip xs w.1 (some w.2) hx
      · have hnd' := (List.nodup_cons.mp hnd).2
        simp only [List.foldl_cons]
        by_cases hx : x.1 = w.1
        · exfalso
          exact (List.nodup_cons.mp hnd).1 (hx ▸ List.mem_map_of_mem Prod.fst hw')
        · simp only [if_neg hx]
          exact ih hnd' hw'

theorem storeOvGo_spec (cap ver : Nat) (alloc : Nat → Nat) (buffer : List Nat)
    (hcap : 1 ≤ cap) (halloc0 : ∀ i, alloc i ≠ 0) :
    ∀ fuel endPos, 1 ≤ endPos → endPos ≤ fuel → endPos ≤ buffer.length →
    ∀ idx previous writes0 (contLen : Nat) (rest : List Nat),
    ∃ ws head lastIdx,
      storeOvGo cap ver alloc buffer fuel idx endPos previous writes0
          = some (head, lastIdx, writes0 ++ ws) ∧
      idx < lastIdx ∧ lastIdx - idx ≤ endPos ∧
      ws.map Prod.fst = (List.range (lastIdx - idx)).map (fun j => alloc (idx + j)) ∧
      head = alloc (lastIdx - 1) ∧
      (ws.head?.map (fun w => w.2.next)) = some previous ∧
      List.Chain' (fun a b => b.2.next = a.1) ws ∧
      ws.getLast?.map Prod.fst = some head ∧
      ∀ disk : Nat → Option OvPage,
        (∀ w ∈ ws, disk w.1 = some w.2) →
        (previous ≠ 0 → ∀ fl, contLen ≤ fl →
          loadOvBytes disk fl previous = some rest) →
        (previous = 0 → rest = []) →
        ∀ fl, (lastIdx - idx) + contLen ≤ fl →
          loadOvBytes disk fl head = some (readAt buffer 0 endPos ++ rest) := by
  intro fuel
  induction fuel with
  | zero => intro endPos h1 h2; omega
  | succ fuel ih =>
      intro endPos h1 h2 hlen idx previous writes0 contLen rest
      by_cases hsmall : endPos ≤ cap
      · -- single final segment: btw = endPos, loop exits
        have hbtw : (if endPos < cap then endPos else cap) = endPos := by
          by_cases h : endPos < cap <;> simp [h] <;> omega
        refine ⟨[(alloc idx, ⟨alloc idx, ver, previous, readAt buffer 0 endPos⟩)],
          alloc idx, idx + 1, ?_, by omega, by omega, by simp [List.range_succ],
          by simp, by simp, by simp, by simp, ?_⟩
        · simp only [storeOvGo, hbtw]
          simp
        · intro disk hagree hprev hprev0 fl hfl
          have hfl1 : 1 ≤ fl := by omega
          obtain ⟨fl', rfl⟩ : ∃ fl', fl = fl' + 1 := ⟨fl - 1, by omega⟩
          have hd : disk (alloc idx)
              = some ⟨alloc idx, ver, previous, readAt buffer 0 endPos⟩ :=
            hagree (alloc idx, ⟨alloc idx, ver, previous, readAt buffer 0 endPos⟩)
              (List.mem_singleton_self _)
          by_cases hp : previous = 0
          · simp [loadOvBytes, hd, hp, hprev0 hp]
          · have := hprev hp fl' (by omega)
            simp [loadOvBytes, hd, hp, this]
      · -- btw = cap, at least one more segment follows
        push_neg at hsmall
        have hbtw : (if endPos < cap then endPos else cap) = cap := by
          simp [Nat.not_lt_of_lt hsmall]
        have hrec := ih (endPos - cap) (by omega) (by omega) (by omega)
          (idx + 1) (alloc idx) (writes0 ++ [(alloc idx,
            ⟨alloc idx, ver, previous, readAt buffer (endPos - cap) cap⟩)])
          (contLen + 1) (readAt buffer (endPos - cap) cap ++ rest)
        obtain ⟨ws', head, lastIdx, hstore, hidx, hcnt, hmap, hhead, hfirst, hchain,
          hlast, hload⟩ := hrec
        have hws'ne : ws' ≠ [] := by
          intro he
          rw [he] at hmap
          have : lastIdx - (idx + 1) = 0 := by
            by_contra hne
            obtain ⟨m, hm⟩ : ∃ m, lastIdx - (idx + 1) = m + 1 :=
              ⟨lastIdx - (idx + 1) - 1, by omega⟩
            rw [hm] at hmap
            simp [List.range_succ] at hmap
          omega
        refine ⟨(alloc idx, ⟨alloc idx, ver, previous,
            readAt buffer (endPos - cap) cap⟩) :: ws', head, lastIdx, ?_, by omega,
          by omega, ?_, hhead, by simp, ?_, ?_, ?_⟩
        · simp only [storeOvGo, hbtw]
          have hne : ¬ (endPos - cap = 0) := by omega
          simp only [if_neg hne]
          simpa using hstore
        · -- page-number listing
          have : lastIdx - idx = (lastIdx - (idx + 1)) + 1 := by omega
          rw [this, List.range_succ_eq_map]
          simp only [List.map_cons, List.map_map, hmap]
          refine List.cons_eq_cons.mpr ⟨by simp, ?_⟩
          apply List.map_congr_left
          intro j hj
          simp only [Function.comp]
          congr 1
          omega
        · -- the chain relation
          rw [List.chain'_cons']
          refine ⟨?_, hchain⟩
          intro b hb
          have : ws'.head?.map (fun w => w.2.next) = some (alloc idx) := hfirst
          cases hh : ws'.head? with
          | none => simp [hh] at hb
          | some w =>
              rw [hh] at this hb
              simp at this hb
              subst hb
              exact this
        · -- the last write holds the head page number
          cases ws' with
          | nil => exact absurd rfl hws'ne
          | cons a l => simpa using hlast
        · -- the load property
          intro disk hagree hprev hprev0 fl hfl
          have hagree' : ∀ w ∈ ws', disk w.1 = some w.2 := by
            intro w hw
            exact hagree w (by simp [hw])
          have hd : disk (alloc idx)
              = some ⟨alloc idx, ver, previous, readAt buffer (endPos - cap) cap⟩ :=
            hagree (alloc idx, ⟨alloc idx, ver, previous, readAt buffer (endPos - cap) cap⟩)
              (List.mem_cons_self _ _)
          have hprev' : alloc idx ≠ 0 → ∀ fl', contLen + 1 ≤ fl' →
              loadOvBytes disk fl' (alloc idx)
                = some (readAt buffer (endPos - cap) cap ++ rest) := by
            intro _ fl' hfl'
            obtain ⟨fl'', rfl⟩ : ∃ m, fl' = m + 1 := ⟨fl' - 1, by omega⟩
            by_cases hp : previous = 0
            · simp [loadOvBytes, hd, hp, hprev0 hp]
            · have := hprev hp fl'' (by omega)
              simp [loadOvBytes, hd, hp, this]
          have := hload disk hagree' (fun _ => hprev' (halloc0 idx))
            (fun h => absurd h (halloc0 idx)) fl (by omega)
          rw [this]
          have hsplit : readAt buffer 0 (endPos - cap) ++ readAt buffer (endPos - cap) cap
              = readAt buffer 0 endPos := by
            simp only [readAt, List.drop_zero]
            rw [← List.take_add]
            congr 1
            omega
          rw [← List.append_assoc, hsplit]

theorem ovFromBytes_serialize (key value : List Nat) (version overflow : Nat)
    (hk : key.length < 2 ^ 32) (hv : value.length < 2 ^ 32)
    (hver : version < 2 ^ 56) (hovf1 : 1 ≤ overflow) (hovf5 : overflow ≤ 5) :
    ovFromBytes (ovSerialize key value version overflow)
      = some ⟨key, value, version, overflow⟩ := by
  have hassoc : ovSerialize key value version overflow
      = leBytes 4 key.length ++ (leBytes 4 value.length
        ++ (leBytes 7 version ++ ([overflow % 256] ++ (key ++ value)))) := by
    simp [ovSerialize, vhBytes, List.append_assoc]
  have hlen : (ovSerialize key value version overflow).length
      = 16 + key.length + value.length := by
    simp [hassoc, leBytes_length]
    omega
  have d0 : (ovSerialize key value version overflow).drop 0
      = ovSerialize key value version overflow := List.drop_zero _
  have d4 : (ovSerialize key value version overflow).drop 4
      = leBytes 4 value.length ++ (leBytes 7 version
        ++ ([overflow % 256] ++ (key ++ value))) := by
    rw [hassoc]; exact List.drop_left' (leBytes_length 4 _)
  have d8 : (ovSerialize key value version overflow).drop 8
      = leBytes 7 version ++ ([overflow % 256] ++ (key ++ value)) := by
    have : (8 : Nat) = 4 + 4 := rfl
    rw [this, ← List.drop_drop, d4]
    exact List.drop_left' (leBytes_length 4 _)
  have d15 : (ovSerialize key value version overflow).drop 15
      = [overflow % 256] ++ (key ++ value) := by
    have : (15 : Nat) = 8 + 7 := rfl
    rw [this, ← List.drop_drop, d8]
    exact List.drop_left' (leBytes_length 7 _)
  have d16 : (ovSerialize key value version overflow).drop 16
      = key ++ value := by
    have : (16 : Nat) = 15 + 1 := rfl
    rw [this, ← List.drop_drop, d15]
    rfl
  have dk : (ovSerialize key value version overflow).drop (16 + key.length)
      = value := by
    rw [← List.drop_drop, d16]
    exact List.drop_left key value
  have rk : readAt (ovSerialize key value version overflow) 0 4
      = leBytes 4 key.length := by
    rw [readAt, d0, hassoc]
    exact List.take_left' (leBytes_length 4 _)
  have rv : readAt (ovSerialize key value version overflow) 4 4
      = leBytes 4 value.length := by
    rw [readAt, d4]
    exact List.take_left' (leBytes_length 4 _)
  have rver : readAt (ovSerialize key value version overflow) 8 7
      = leBytes 7 version := by
    rw [readAt, d8]
    exact List.take_left' (leBytes_length 7 _)
  have rflags : readU8 (ovSerialize key value version overflow) 15
      = overflow := by
    rw [readU8, readAt, d15]
    have h5 : overflow % 256 = overflow := Nat.mod_eq_of_lt (by omega)
    simp [fromLE, h5]
  have rkey : readAt (ovSerialize key value version overflow) 16 key.length
      = key := by
    rw [readAt, d16]
    exact List.take_left key value
  have rval : readAt (ovSerialize key value version overflow) (16 + key.length)
        value.length = value := by
    rw [readAt, dk]
    exact List.take_length value
  rw [ovFromBytes, if_pos (by omega)]
  rw [rk, rv, fromLE_leBytes 4 _ hk, fromLE_leBytes 4 _ hv, rflags, rver,
    fromLE_leBytes 7 _ hver]
  rw [if_neg (by omega), if_pos (by omega), rkey, rval]

/-- C7.  Overflow chain round trip: for an overflow tuple built from a key
and value (lengths below `u32::MAX`), a seven-byte version and a non-`None`
tag, `store_overflow_tuple` writes the serialized bytes tail-first — the
first page written (the chain's last segment) has `next = 0`, each later
write's `next` points at the page written just before it, and the returned
head page number is the last page written, the one holding the beginning of
the tuple — and `get_overflow_tuple` at the returned head walks the `next`
links over the written pages and reconstructs the original key, value,
version and tag.  `cap = page_size - 18` is the per-page capacity; the
tracker's allocations are an injective stream of nonzero page numbers. -/
theorem overflow_chain_round_trip
    (key value : List Nat) (version overflow cap : Nat) (alloc : Nat → Nat)
    (hk : key.length < 2 ^ 32 - 1) (hv : value.length < 2 ^ 32 - 1)
    (hver : version < 2 ^ 56 - 1) (hovf1 : 1 ≤ overflow) (hovf5 : overflow ≤ 5)
    (hcap : 1 ≤ cap) (halloc0 : ∀ i, alloc i ≠ 0)
    (hinj : Function.Injective alloc) :
    ∃ buffer head lastIdx ws,
      ovNew key value version overflow = some buffer ∧
      storeOverflowTuple cap version alloc buffer = some (head, lastIdx, ws) ∧
      (ws.head?.map (fun w => w.2.next)) = some 0 ∧
      List.Chain' (fun a b => b.2.next = a.1) ws ∧
      ws.getLast?.map Prod.fst = some head ∧
      getOverflowTuple (diskOf ws) (buffer.length + 1) head
        = some ⟨key, value, version, overflow⟩ := by
  have hbuf : ovNew key value version overflow
      = some (ovSerialize key value version overflow) := by
    rw [ovNew, if_pos ⟨hk, hv, by omega, hver⟩]
  have hblen : (ovSerialize key value version overflow).length
      = 16 + key.length + value.length := by
    simp [ovSerialize, vhBytes, leBytes_length]
    omega
  obtain ⟨ws, head, lastIdx, hstore, hidx, hcnt, hmap, hhead, hfirst, hchain,
    hlast, hload⟩ :=
    storeOvGo_spec cap version alloc (ovSerialize key value version overflow)
      hcap halloc0 ((ovSerialize key value version overflow).length + 1)
      (ovSerialize key value version overflow).length (by omega) (by omega)
      (le_refl _) 0 0 [] 0 []
  have hnd : (ws.map Prod.fst).Nodup := by
    rw [hmap]
    exact (List.nodup_range _).map
      (fun a b h => by simpa using hinj h)
  have hagree := diskOf_agrees ws hnd
  have hloadv := hload (diskOf ws) hagree (fun h => absurd rfl h) (fun _ => rfl)
    ((ovSerialize key value version overflow).length + 1) (by omega)
  refine ⟨ovSerialize key value version overflow, head, lastIdx, ws, hbuf,
    by simpa [storeOverflowTuple] using hstore, hfirst, hchain, hlast, ?_⟩
  rw [getOverflowTuple, hloadv]
  have : readAt (ovSerialize key value version overflow) 0
      (ovSerialize key value version overflow).length
      = ovSerialize key value version overflow := by
    simp [readAt]
  rw [this, List.append_nil]
  exact ovFromBytes_serialize key value version overflow (by omega) (by omega)
    (by omega) hovf1 hovf5

/-- Witness for C7 at a concrete overflow tuple: key `[1]`, value `[2]`,
version 3, tag `KeyOverflow = 2`, capacity 4 bytes per page, allocations
7, 8, 9, ... . -/
theorem overflow_chain_round_trip_witness :
    ∃ buffer head lastIdx ws,
      ovNew [1] [2] 3 2 = some buffer ∧
      storeOverflowTuple 4 3 (fun i => i + 7) buffer = some (head, lastIdx, ws) ∧
      (ws.head?.map (fun w => w.2.next)) = some 0 ∧
      List.Chain' (fun a b => b.2.next = a.1) ws ∧
      ws.getLast?.map Prod.fst = some head ∧
      getOverflowTuple (diskOf ws) (buffer.length + 1) head
        = some ⟨[1], [2], 3, 2⟩ :=
  overflow_chain_round_trip [1] [2] 3 2 4 (fun i => i + 7) (by norm_num)
    (by norm_num) (by norm_num) (by norm_num) (by norm_num) (by norm_num)
    (by intro i; show i + 7 ≠ 0; omega)
    (by intro a b h; change a + 7 = b + 7 at h; omega)

/-! ### The free-page tracker, `src/free_page_tracker.rs`, `src/free_dir_page.rs`

A `FreeDirPage` is modelled by its parsed content: page number, version,
next/previous links and the entry array of free page numbers in index order
(`get_free_page` pops the last entry, `add_free_page(s)` appends).  The
tracker holds a stack of such pages — the model list's head is the Rust
vector's last element, the working top — plus the list of returned page
numbers.  The page cache, seen from the tracker, is the (never-changing)
mapping of page numbers to the `FreeDir` pages stored on disk plus the total
page count; `create_new_pages(n)` appends `n` pages at the end of the file
and returns their numbers `count, count+1, ...`. -/

/-- Parsed content of a `FreeDirPage`. -/
structure FreeDirPageM where
  pageNo : Nat
  version : Nat
  next : Nat
  prev : Nat
  frees : List Nat
deriving DecidableEq, Repr

/-- `FreeDirPage::is_full_for`: fewer than `8 * n` bytes left after the
34-byte header and the existing 8-byte entries. -/
def fdIsFullFor (pageSize : Nat) (fd : FreeDirPageM) (n : Nat) : Bool :=
  (pageSize - 34) - 8 * fd.frees.length < 8 * n

/-- `FreeDirPage::is_full`. -/
def fdIsFull (pageSize : Nat) (fd : FreeDirPageM) : Bool :=
  fdIsFullFor pageSize fd 1

/-- `FreeDirPage::add_free_pages`, with its asserts. -/
def fdAddFrees (pageSize : Nat) (fd : FreeDirPageM) (ns : List Nat) :
    Option FreeDirPageM :=
  if fdIsFullFor pageSize fd ns.length ∨ 65535 ≤ ns.length then none
  else some { fd with frees := fd.frees ++ ns }

/-- The free-page tracker's state (`FreePageTracker`): the stack of free-dir
pages (head = working top), the returned page numbers, the commit version. -/
structure Tracker where
  stack : List FreeDirPageM
  returned : List Nat
  newVersion : Nat
deriving DecidableEq, Repr

/-- `FreePageTracker::new`, with its `version < new_version` assert. -/
def trackerNew (fd : FreeDirPageM) (newV : Nat) : Option Tracker :=
  if fd.version < newV then some ⟨[fd], [], newV⟩ else none

/-- The page cache as the tracker sees it: the `FreeDir` pages on disk and
the file's page count. -/
structure TCache where
  disk : Nat → FreeDirPageM
  count : Nat

/-- `FreePageTracker::get_free_page`: pop the top free-dir page's last
entry; if it is empty follow its `next` link (retiring the head's own page
number); if there is no link, extend the file by 16 pages, hand out the
first and add the other fifteen (in descending order) to the top page.
`fuel` bounds the link-chasing recursion. -/
def getFreePage (pageSize : Nat) : Nat → Tracker → TCache →
    Option (Nat × Tracker × TCache)
  | 0, _, _ => none
  | fuel + 1, t, c =>
    match t.stack with
    | [] => none
    | top :: rest =>
      match top.frees.getLast? with
      | some x =>
          some (x, { t with stack := { top with frees := top.frees.dropLast } :: rest }, c)
      | none =>
          if top.next ≠ 0 then
            getFreePage pageSize fuel
              { t with stack := c.disk top.next :: rest,
                       returned := t.returned ++ [top.pageNo] } c
          else
            let fresh := (List.range 16).map (fun j => c.count + j)
            match fdAddFrees pageSize top fresh.reverse.dropLast with
            | none => none
            | some top' =>
                some (c.count, { t with stack := top' :: rest },
                  { c with count := c.count + 16 })

/-- `FreePageTracker::return_free_page_no`, with its nonempty-stack assert. -/
def returnFreePage (t : Tracker) (n : Nat) : Option Tracker :=
  match t.stack with
  | [] => none
  | _ :: _ => some { t with returned := t.returned ++ [n] }

/-- One external call on the tracker during a commit. -/
inductive TrackerOp where
  | get : TrackerOp
  | ret (n : Nat) : TrackerOp
deriving DecidableEq, Repr

/-- Run a sequence of tracker calls, collecting every page number
`get_free_page` hands out. -/
def runOps (pageSize fuel : Nat) :
    List TrackerOp → Tracker → TCache → Option (List Nat × Tracker × TCache)
  | [], t, c => some ([], t, c)
  | .ret n :: ops, t, c =>
      (returnFreePage t n).bind (fun t' => runOps pageSize fuel ops t' c)
  | .get :: ops, t, c =>
      (getFreePage pageSize fuel t c).bind (fun r =>
        (runOps pageSize fuel ops r.2.1 r.2.2).map
          (fun s => (r.1 :: s.1, s.2.1, s.2.2)))

/-- Drain loop of `get_free_dir_pages`: pop returned page numbers (from the
end) into the page until it reports full; the page number popped when
fullness is discovered is dropped.  The list argument is already reversed
(head = next page number to pop). -/
def fdFillRev (pageSize : Nat) : FreeDirPageM → List Nat →
    FreeDirPageM × List Nat
  | fd, [] => (fd, [])
  | fd, r :: rs =>
      if fdIsFull pageSize fd then (fd, rs)
      else fdFillRev pageSize { fd with frees := fd.frees ++ [r] } rs

/-- Overflow loop of `get_free_dir_pages`: while returned numbers remain,
extend the file by one page, start a fresh free-dir page there (version =
commit version) linked to the previous page (`next` on the new page,
`previous` on the old one), and drain into it. -/
def finalizeLoop (pageSize ver : Nat) :
    Nat → FreeDirPageM → List FreeDirPageM → List Nat → TCache →
    Option (List FreeDirPageM × TCache)
  | _, last, acc, [], c => some (acc ++ [last], c)
  | 0, _, _, _ :: _, _ => none
  | fuel + 1, last, acc, rem, c =>
      let freshNo := c.count
      let newPage : FreeDirPageM :=
        { pageNo := freshNo, version := ver, next := last.pageNo, prev := 0,
          frees := [] }
      let filled := fdFillRev pageSize newPage rem
      finalizeLoop pageSize ver fuel filled.1
        (acc ++ [{ last with prev := freshNo }]) filled.2
        { c with count := c.count + 1 }

/-- `FreePageTracker::get_free_dir_pages`: allocate a new number for the
(single) remaining free-dir page, retire its old number, stamp the commit
version, drain the returned numbers into it and into as many fresh linked
pages as needed, and hand the pages back in list order (the caller's new
free-dir head pointer is the last page of the list). -/
def getFreeDirPages (pageSize fuel : Nat) (t : Tracker) (c : TCache) :
    Option (List FreeDirPageM × TCache) :=
  match t.stack with
  | [top0] =>
      match getFreePage pageSize fuel t c with
      | none => none
      | some (n, t', c') =>
          match t'.stack with
          | [top] =>
              let top1 := { top with pageNo := n, version := t.newVersion }
              let returned1 := t'.returned ++ [top.pageNo]
              let filled := fdFillRev pageSize top1 returned1.reverse
              finalizeLoop pageSize t.newVersion (filled.2.length + 1)
                filled.1 [] filled.2 c'
          | _ => none
  | _ => none

/-- Free pool of the tracker: every number in any stacked free-dir page is
either part of the initial free pool `U` or a freshly appended page
(`base ≤ x`). -/
def InvStack (U : Nat → Prop) (base : Nat) (t : Tracker) : Prop :=
  ∀ fd ∈ t.stack, ∀ x ∈ fd.frees, U x ∨ base ≤ x

/-- Cache invariant: the disk mapping never changes and the page count never
drops below the initial count. -/
def CInv (disk0 : Nat → FreeDirPageM) (base : Nat) (c : TCache) : Prop :=
  c.disk = disk0 ∧ base ≤ c.count

theorem getFreePage_spec (pageSize : Nat) (U : Nat → Prop) (base : Nat)
    (disk0 : Nat → FreeDirPageM) (hUd : ∀ p, ∀ x ∈ (disk0 p).frees, U x) :
    ∀ fuel t c x t' c',
    InvStack U base t → CInv disk0 base c →
    getFreePage pageSize fuel t c = some (x, t', c') →
    (U x ∨ base ≤ x) ∧ InvStack U base t' ∧ CInv disk0 base c' ∧
      t'.newVersion = t.newVersion := by
  intro fuel
  induction fuel with
  | zero => intro t c x t' c' _ _ h; cases h
  | succ fuel ih =>
      intro t c x t' c' hinv hc h
      match hs : t.stack with
      | [] => rw [getFreePage, hs] at h; cases h
      | top :: rest =>
        rw [getFreePage, hs] at h
        have htop : top ∈ t.stack := by rw [hs]; exact List.mem_cons_self _ _
        match hl : top.frees.getLast? with
        | some y =>
            simp only [hl, Option.some.injEq, Prod.mk.injEq] at h
            obtain ⟨hxy, ht', hcc⟩ := h
            refine ⟨?_, ?_, ?_, ?_⟩
            · rw [← hxy]
              exact hinv top htop y (List.mem_of_mem_getLast? hl)
            · intro fd hfd z hz
              rw [← ht'] at hfd
              simp only [List.mem_cons] at hfd
              rcases hfd with rfl | hfd
              · exact hinv top htop z (List.dropLast_subset _ hz)
              · exact hinv fd (by rw [hs]; exact List.mem_cons_of_mem _ hfd) z hz
            · rw [← hcc]; exact hc
            · rw [← ht']
        | none =>
            simp only [hl] at h
            by_cases hn : top.next ≠ 0
            · rw [if_pos hn] at h
              have hinv1 : InvStack U base
                  { stack := c.disk top.next :: rest,
                    returned := t.returned ++ [top.pageNo],
                    newVersion := t.newVersion } := by
                intro fd hfd z hz
                simp only [List.mem_cons] at hfd
                rcases hfd with rfl | hfd
                · rw [hc.1] at hz
                  exact Or.inl (hUd _ z hz)
                · exact hinv fd (by rw [hs]; exact List.mem_cons_of_mem _ hfd) z hz
              obtain ⟨ha, hb, hcc2, hd⟩ := ih _ _ _ _ _ hinv1 hc h
              exact ⟨ha, hb, hcc2, hd⟩
            · rw [if_neg hn] at h
              match ha : fdAddFrees pageSize top
                  (((List.range 16).map (fun j => c.count + j)).reverse.dropLast) with
              | none => rw [ha] at h; cases h
              | some top' =>
                  rw [ha] at h
                  simp only [Option.some.injEq, Prod.mk.injEq] at h
                  obtain ⟨h1, h2, h3⟩ := h
                  refine ⟨Or.inr (by rw [← h1]; exact hc.2), ?_, ?_, by rw [← h2]⟩
                  · intro fd hfd z hz
                    rw [← h2] at hfd
                    simp only [List.mem_cons] at hfd
                    rcases hfd with rfl | hfd
                    · unfold fdAddFrees at ha
                      split at ha
                      · cases ha
                      · injection ha with ha
                        rw [← ha] at hz
                        simp only [List.mem_append] at hz
                        rcases hz with hz | hz
                        · exact hinv top htop z hz
                        · have hz' : z ∈ ((List.range 16).map
                              (fun j => c.count + j)).reverse :=
                            List.dropLast_subset _ hz
                          rw [List.mem_reverse] at hz'
                          simp only [List.mem_map, List.mem_range] at hz'
                          obtain ⟨j, _, rfl⟩ := hz'
                          exact Or.inr (by have := hc.2; omega)
                    · exact hinv fd (by rw [hs]; exact List.mem_cons_of_mem _ hfd) z hz
                  · rw [← h3]
                    exact ⟨hc.1, by show base ≤ c.count + 16; have := hc.2; omega⟩

theorem runOps_spec (pageSize : Nat) (U : Nat → Prop) (base : Nat)
    (disk0 : Nat → FreeDirPageM) (hUd : ∀ p, ∀ x ∈ (disk0 p).frees, U x)
    (fuel : Nat) :
    ∀ ops t c allocs t' c',
    InvStack U base t → CInv disk0 base c →
    runOps pageSize fuel ops t c = some (allocs, t', c') →
    (∀ a ∈ allocs, U a ∨ base ≤ a) ∧ InvStack U base t' ∧ CInv disk0 base c' ∧
      t'.newVersion = t.newVersion := by
  intro ops
  induction ops with
  | nil =>
      intro t c allocs t' c' hinv hc h
      simp only [runOps, Option.some.injEq, Prod.mk.injEq] at h
      obtain ⟨h1, h2, h3⟩ := h
      rw [← h1, ← h2, ← h3]
      exact ⟨by simp, hinv, hc, rfl⟩
  | cons op ops ih =>
      intro t c allocs t' c' hinv hc h
      match op with
      | .ret n =>
          rw [runOps] at h
          match hr : returnFreePage t n with
          | none => rw [hr] at h; cases h
          | some t1 =>
              rw [hr] at h
              simp only [Option.some_bind] at h
              have hinv1 : InvStack U base t1 := by
                unfold returnFreePage at hr
                split at hr
                · cases hr
                · injection hr with hr
                  intro fd hfd z hz
                  rw [← hr] at hfd
                  exact hinv fd hfd z hz
              have hnv : t1.newVersion = t.newVersion := by
                unfold returnFreePage at hr
                split at hr
                · cases hr
                · injection hr with hr; rw [← hr]
              obtain ⟨h1, h2, h3, h4⟩ := ih t1 c allocs t' c' hinv1 hc h
              exact ⟨h1, h2, h3, by rw [h4, hnv]⟩
      | .get =>
          rw [runOps] at h
          match hg : getFreePage pageSize fuel t c with
          | none => rw [hg] at h; cases h
          | some (x, t1, c1) =>
              rw [hg] at h
              simp only [Option.some_bind] at h
              match hrun : runOps pageSize fuel ops t1 c1 with
              | none => rw [hrun] at h; cases h
              | some (xs, t2, c2) =>
                  rw [hrun] at h
                  simp only [Option.map_some', Option.some.injEq,
                    Prod.mk.injEq] at h
                  obtain ⟨h1, h2, h3⟩ := h
                  obtain ⟨hx, hinv1, hc1, hnv1⟩ :=
                    getFreePage_spec pageSize U base disk0 hUd fuel t c x t1 c1
                      hinv hc hg
                  obtain ⟨hxs, hinv2, hc2, hnv2⟩ :=
                    ih t1 c1 xs t2 c2 hinv1 hc1 hrun
                  refine ⟨?_, by rw [← h2]; exact hinv2, by rw [← h3]; exact hc2,
                    by rw [← h2, hnv2, hnv1]⟩
                  intro a ha
                  rw [← h1] at ha
                  rcases List.mem_cons.mp ha with rfl | ha
                  · exact hx
                  · exact hxs a ha

theorem fdFillRev_pageNo (pageSize : Nat) :
    ∀ l fd, ((fdFillRev pageSize fd l).1).pageNo = fd.pageNo := by
  intro l
  induction l with
  | nil => intro fd; rfl
  | cons r rs ih =>
      intro fd
      rw [fdFillRev]
      by_cases h : fdIsFull pageSize fd
      · simp [h]
      · simp only [h, Bool.false_eq_true, if_false]
        rw [ih]

theorem finalizeLoop_pages (pageSize ver : Nat) (Q : Nat → Prop) :
    ∀ fuel last acc rem c pages c',
    Q last.pageNo → (∀ pg ∈ acc, Q pg.pageNo) → (∀ m, c.count ≤ m → Q m) →
    finalizeLoop pageSize ver fuel last acc rem c = some (pages, c') →
    ∀ pg ∈ pages, Q pg.pageNo := by
  intro fuel
  induction fuel with
  | zero =>
      intro last acc rem c pages c' hlast hacc _ h pg hpg
      match rem with
      | [] =>
          simp only [finalizeLoop, Option.some.injEq, Prod.mk.injEq] at h
          rw [← h.1] at hpg
          rcases List.mem_append.mp hpg with hpg | hpg
          · exact hacc pg hpg
          · rw [List.mem_singleton.mp hpg]; exact hlast
      | _ :: _ => cases h
  | succ fuel ih =>
      intro last acc rem c pages c' hlast hacc hfresh h pg hpg
      match rem with
      | [] =>
          simp only [finalizeLoop, Option.some.injEq, Prod.mk.injEq] at h
          rw [← h.1] at hpg
          rcases List.mem_append.mp hpg with hpg | hpg
          · exact hacc pg hpg
          · rw [List.mem_singleton.mp hpg]; exact hlast
      | r :: rs =>
          rw [finalizeLoop] at h
          refine ih _ _ _ _ pages c' ?_ ?_ ?_ h pg hpg
          · rw [fdFillRev_pageNo]
            exact hfresh c.count (le_refl _)
          · intro q hq
            rcases List.mem_append.mp hq with hq | hq
            · exact hacc q hq
            · rw [List.mem_singleton.mp hq]; exact hlast
          · intro m hm
            exact hfresh m (by simpa using Nat.le_of_succ_le hm)
          · intro hh; cases hh

/-- C3.  Free-page tracker no-reuse: over any sequence of `get_free_page` and
`return_free_page_no` calls on one tracker (one commit), no page number
handed out by `get_free_page` equals any number passed to
`return_free_page_no`; retired numbers never enter the in-memory free lists,
and every free-dir page produced at finalization carries a page number that
is not a retired number (the head is remapped to a fresh allocation and
overflow pages are newly extended pages).  Hypotheses: the initial free pool
`U` (the seed page's entries and those of every linked free-dir page on
disk) lies below the file's page count, and every retired number is an
existing page outside that pool — retired pages are live pages of the old
master, which are never on the free list. -/
theorem tracker_no_reuse (pageSize newV count0 : Nat) (fd0 : FreeDirPageM)
    (disk0 : Nat → FreeDirPageM) (U : Nat → Prop)
    (hU0 : ∀ x ∈ fd0.frees, U x)
    (hUd : ∀ p, ∀ x ∈ (disk0 p).frees, U x)
    (hUb : ∀ x, U x → x < count0)
    (ops : List TrackerOp) (fuel : Nat)
    (hR : ∀ n, TrackerOp.ret n ∈ ops → ¬ U n ∧ n < count0)
    (t0 : Tracker) (ht0 : trackerNew fd0 newV = some t0)
    (allocs : List Nat) (t : Tracker) (c : TCache)
    (hrun : runOps pageSize fuel ops t0 ⟨disk0, count0⟩ = some (allocs, t, c)) :
    (∀ a ∈ allocs, ∀ n, TrackerOp.ret n ∈ ops → a ≠ n) ∧
      (∀ fd ∈ t.stack, ∀ x ∈ fd.frees, ∀ n, TrackerOp.ret n ∈ ops → x ≠ n) ∧
      (∀ pages c', getFreeDirPages pageSize fuel t c = some (pages, c') →
        ∀ pg ∈ pages, ∀ n, TrackerOp.ret n ∈ ops → pg.pageNo ≠ n) := by
  have ht0' : t0 = ⟨[fd0], [], newV⟩ := by
    unfold trackerNew at ht0
    split at ht0
    · injection ht0 with h; rw [← h]
    · cases ht0
  have hinv0 : InvStack U count0 t0 := by
    rw [ht0']
    intro fd hfd x hx
    rcases List.mem_singleton.mp hfd with rfl
    exact Or.inl (hU0 x hx)
  have hc0 : CInv disk0 count0 ⟨disk0, count0⟩ := ⟨rfl, le_refl _⟩
  obtain ⟨hallocs, hinvt, hct, _⟩ :=
    runOps_spec pageSize U count0 disk0 hUd fuel ops t0 ⟨disk0, count0⟩
      allocs t c hinv0 hc0 hrun
  have good_ne : ∀ a, (U a ∨ count0 ≤ a) → ∀ n, TrackerOp.ret n ∈ ops → a ≠ n := by
    intro a hga n hn han
    obtain ⟨hnu, hnc⟩ := hR n hn
    rcases hga with h | h
    · exact hnu (han ▸ h)
    · omega
  refine ⟨fun a ha => good_ne a (hallocs a ha),
    fun fd hfd x hx => good_ne x (hinvt fd hfd x hx), ?_⟩
  intro pages c' hg
  unfold getFreeDirPages at hg
  match hts : t.stack with
  | [] => rw [hts] at hg; cases hg
  | a :: b :: l => rw [hts] at hg; cases hg
  | [top0] =>
      rw [hts] at hg
      simp only [] at hg
      match hgp : getFreePage pageSize fuel t c with
      | none => rw [hgp] at hg; cases hg
      | some (n, t', c'') =>
          rw [hgp] at hg
          simp only [] at hg
          obtain ⟨hn, hinv', hc', _⟩ :=
            getFreePage_spec pageSize U count0 disk0 hUd fuel t c n t' c''
              hinvt hct hgp
          match hts' : t'.stack with
          | [] => rw [hts'] at hg; cases hg
          | a :: b :: l => rw [hts'] at hg; cases hg
          | [top] =>
              rw [hts'] at hg
              simp only [] at hg
              have := finalizeLoop_pages pageSize t.newVersion
                (fun m => U m ∨ count0 ≤ m) _ _ _ _ _ pages c'
                (by rw [fdFillRev_pageNo]; exact hn)
                (by intro pg hpg; cases hpg)
                (by intro m hm; exact Or.inr (le_trans hc'.2 hm)) hg
              intro pg hpg
              exact good_ne pg.pageNo (this pg hpg)

theorem tracker_no_reuse_witness :
    runOps 50 10 [TrackerOp.get, TrackerOp.ret 5, TrackerOp.get]
        ⟨[⟨3, 0, 0, 0, [10, 11]⟩], [], 1⟩ ⟨fun j => ⟨0, 0, 0, 0, []⟩, 20⟩ =
      some ([11, 10], ⟨[⟨3, 0, 0, 0, []⟩], [5], 1⟩,
        ⟨fun j => ⟨0, 0, 0, 0, []⟩, 20⟩) ∧
    (11 : Nat) ≠ 5 ∧ (10 : Nat) ≠ 5 := by
  have hrun : runOps 50 10 [TrackerOp.get, TrackerOp.ret 5, TrackerOp.get]
      ⟨[⟨3, 0, 0, 0, [10, 11]⟩], [], 1⟩ ⟨fun j => ⟨0, 0, 0, 0, []⟩, 20⟩ =
      some ([11, 10], ⟨[⟨3, 0, 0, 0, []⟩], [5], 1⟩,
        ⟨fun j => ⟨0, 0, 0, 0, []⟩, 20⟩) := rfl
  have hR : ∀ n, TrackerOp.ret n ∈
      [TrackerOp.get, TrackerOp.ret 5, TrackerOp.get] →
      ¬ (n = 10 ∨ n = 11) ∧ n < 20 := by
    intro n hn
    simp only [List.mem_cons, List.not_mem_nil, or_false] at hn
    rcases hn with h | h | h
    · exact TrackerOp.noConfusion h
    · injection h with h'
      subst h'
      exact ⟨by decide, by decide⟩
    · exact TrackerOp.noConfusion h
  have main := tracker_no_reuse 50 1 20 ⟨3, 0, 0, 0, [10, 11]⟩
    (fun j => ⟨0, 0, 0, 0, []⟩) (fun x => x = 10 ∨ x = 11)
    (by decide) (fun p x hx => absurd hx (List.not_mem_nil x))
    (by intro x hx; rcases hx with rfl | rfl <;> decide)
    [TrackerOp.get, TrackerOp.ret 5, TrackerOp.get] 10 hR
    ⟨[⟨3, 0, 0, 0, [10, 11]⟩], [], 1⟩ rfl
    [11, 10] ⟨[⟨3, 0, 0, 0, []⟩], [5], 1⟩
    ⟨fun j => ⟨0, 0, 0, 0, []⟩, 20⟩ hrun
  exact ⟨hrun, main.1 11 (by decide) 5 (by decide),
    main.1 10 (by decide) 5 (by decide)⟩

/-- Binary-search loop of `TreeDirPage::get_next_page` (structurally the same
loop as `set_page_no_for_key`): `mid = left + (right - left) / 2`; an exact
key match returns that entry's child, a smaller entry key moves `left` to
`mid + 1`, otherwise `right` becomes `mid - 1` — on the source's u16 that
subtraction is reached with `mid = 0` only when the search key is below the
first entry's key, a case `get_next_page` peels off before the loop; the
model returns `none` there.  On exit (`left > right`) the entry at `right`
routes. -/
def dirFindGo (es : List DirEntry) (k : List Nat) :
    Nat → Nat → Nat → Option Nat
  | 0, _, _ => none
  | fuel + 1, left, right =>
      if left ≤ right then
        match es[left + (right - left) / 2]? with
        | none => none
        | some e =>
            if e.key = k then some e.child
            else if bLt e.key k then
              dirFindGo es k fuel (left + (right - left) / 2 + 1) right
            else if left + (right - left) / 2 = 0 then none
            else dirFindGo es k fuel left (left + (right - left) / 2 - 1)
      else
        match es[right]? with
        | none => none
        | some e => some e.child

/-- `TreeDirPage::get_next_page`: empty page routes to `page_to_left`; a key
below the first entry routes to `page_to_left`; a key above the last entry
routes to the last entry's child; otherwise the binary search decides. -/
def dirGetNextPage (d : DirPage) (k : List Nat) : Option Nat :=
  match d.entries with
  | [] => some d.left
  | e0 :: rest =>
      match (e0 :: rest).getLast? with
      | none => none
      | some le =>
          if bLt k e0.key then some d.left
          else if bLt le.key k then some le.child
          else dirFindGo d.entries k (d.entries.length + 1) 0
            (d.entries.length - 1)

theorem dirFindGo_spec (es : List DirEntry) (k : List Nat)
    (hs : es.Pairwise (fun a b => bLt a.key b.key = true))
    (h0 : ∀ e0, es[0]? = some e0 → bLt k e0.key = false) :
    ∀ fuel left right, right < es.length → left ≤ right + 1 →
    right + 1 - left < fuel →
    (∀ i ei, i < left → es[i]? = some ei → bLt k ei.key = false) →
    (∀ j ej, right < j → es[j]? = some ej → bLt k ej.key = true) →
    ∃ (i : Nat) (e : DirEntry), es[i]? = some e ∧
      dirFindGo es k fuel left right = some e.child ∧
      bLt k e.key = false ∧
      ∀ (j : Nat) (ej : DirEntry), es[j]? = some ej → i < j →
        bLt k ej.key = true := by
  have hpair : ∀ i j (hi : i < es.length) (hj : j < es.length), i < j →
      bLt (es.get ⟨i, hi⟩).key (es.get ⟨j, hj⟩).key = true := by
    intro i j hi hj hij
    exact List.pairwise_iff_getElem.mp hs i j hi hj hij
  intro fuel
  induction fuel with
  | zero => intro left right _ _ hf _ _; omega
  | succ fuel ih =>
      intro left right hr hlr hf hA hB
      rw [dirFindGo]
      by_cases hcase : left ≤ right
      · rw [if_pos hcase]
        have hmlt : left + (right - left) / 2 < es.length := by omega
        have hmge : left ≤ left + (right - left) / 2 := by omega
        have hmle : left + (right - left) / 2 ≤ right := by omega
        have hme : es[left + (right - left) / 2]? =
            some (es.get ⟨left + (right - left) / 2, hmlt⟩) := by
          rw [List.getElem?_eq_getElem hmlt]; rfl
        simp only [hme]
        by_cases heq : (es.get ⟨left + (right - left) / 2, hmlt⟩).key = k
        · rw [if_pos heq]
          refine ⟨left + (right - left) / 2,
            es.get ⟨left + (right - left) / 2, hmlt⟩, hme, rfl, ?_, ?_⟩
          · rw [heq]; exact bLt_irrefl k
          · intro j ej hj hij
            have hjlt : j < es.length := (List.getElem?_eq_some.mp hj).1
            have hej : ej = es.get ⟨j, hjlt⟩ := by
              rw [List.getElem?_eq_getElem hjlt] at hj
              exact (Option.some.injEq _ _ ▸ hj).symm
            rw [hej]
            have := hpair _ _ hmlt hjlt hij
            rw [heq] at this
            exact this
        · rw [if_neg heq]
          by_cases hlt : bLt (es.get ⟨left + (right - left) / 2, hmlt⟩).key k = true
          · rw [if_pos hlt]
            refine ih (left + (right - left) / 2 + 1) right hr (by omega)
              (by omega) ?_ hB
            intro i ei hi hie
            have hilt : i < es.length := (List.getElem?_eq_some.mp hie).1
            have hei : ei = es.get ⟨i, hilt⟩ := by
              rw [List.getElem?_eq_getElem hilt] at hie
              exact (Option.some.injEq _ _ ▸ hie).symm
            rcases Nat.lt_or_ge i left with hil | hil
            · exact hA i ei hil hie
            · rcases Nat.lt_or_ge i (left + (right - left) / 2) with him | him
              · have h1 := hpair _ _ hilt hmlt him
                have h2 := bLt_trans h1 hlt
                rw [hei]; exact bLt_asymm h2
              · have hieq : i = left + (right - left) / 2 := by omega
                rw [hei]
                have : es.get ⟨i, hilt⟩ = es.get ⟨left + (right - left) / 2, hmlt⟩ := by
                  congr 1
                  exact Fin.ext hieq
                rw [this]
                exact bLt_asymm hlt
          · rw [if_neg hlt]
            have hlt' : bLt (es.get ⟨left + (right - left) / 2, hmlt⟩).key k = false :=
              Bool.not_eq_true _ ▸ hlt
            have hgt : bLt k (es.get ⟨left + (right - left) / 2, hmlt⟩).key = true := by
              by_contra hc
              have hc' : bLt k (es.get ⟨left + (right - left) / 2, hmlt⟩).key = false :=
                Bool.not_eq_true _ ▸ hc
              exact heq (bLt_total hlt' hc')
            have hm0 : left + (right - left) / 2 ≠ 0 := by
              intro hz
              have h0lt : 0 < es.length := by omega
              have h00 : es[0]? = some (es.get ⟨0, h0lt⟩) := by
                rw [List.getElem?_eq_getElem h0lt]; rfl
              have hf := h0 _ h00
              have hgeq : es.get ⟨left + (right - left) / 2, hmlt⟩ =
                  es.get ⟨0, h0lt⟩ := by
                congr 1
                exact Fin.ext hz
              rw [hgeq, hf] at hgt
              cases hgt
            rw [if_neg hm0]
            refine ih left (left + (right - left) / 2 - 1) (by omega) (by omega)
              (by omega) hA ?_
            intro j ej hj hje
            have hjlt : j < es.length := (List.getElem?_eq_some.mp hje).1
            have hej : ej = es.get ⟨j, hjlt⟩ := by
              rw [List.getElem?_eq_getElem hjlt] at hje
              exact (Option.some.injEq _ _ ▸ hje).symm
            rcases Nat.lt_or_ge j (left + (right - left) / 2 + 1) with hjm | hjm
            · have hjeq : j = left + (right - left) / 2 := by omega
              rw [hej]
              have : es.get ⟨j, hjlt⟩ = es.get ⟨left + (right - left) / 2, hmlt⟩ := by
                congr 1
                exact Fin.ext hjeq
              rw [this]
              exact hgt
            · have h1 := hpair _ _ hmlt hjlt (by omega)
              rw [hej]
              exact bLt_trans hgt h1
      · rw [if_neg hcase]
        have hre : es[right]? = some (es.get ⟨right, hr⟩) := by
          rw [List.getElem?_eq_getElem hr]; rfl
        simp only [hre]
        exact ⟨right, es.get ⟨right, hr⟩, hre, rfl,
          hA right _ (by omega) hre, fun j ej hj hij => hB j ej hij hj⟩

/-- Routing characterization of `TreeDirPage::get_next_page` on a strictly
sorted page (shared helper). -/
theorem dirRoute_char (d : DirPage) (k : List Nat)
    (hs : d.entries.Pairwise (fun a b => bLt a.key b.key = true)) :
    (d.entries = [] → dirGetNextPage d k = some d.left) ∧
    (∀ e0, d.entries.head? = some e0 → bLt k e0.key = true →
      dirGetNextPage d k = some d.left) ∧
    (∀ le, d.entries.getLast? = some le → bLt le.key k = true →
      dirGetNextPage d k = some le.child) ∧
    (∀ e0 le, d.entries.head? = some e0 → d.entries.getLast? = some le →
      bLt k e0.key = false → bLt le.key k = false →
      ∃ (i : Nat) (e : DirEntry), d.entries[i]? = some e ∧
        dirGetNextPage d k = some e.child ∧ bLt k e.key = false ∧
        ∀ (j : Nat) (ej : DirEntry), d.entries[j]? = some ej → i < j →
          bLt k ej.key = true) := by
  cases hde : d.entries with
  | nil =>
      refine ⟨fun _ => by simp [dirGetNextPage, hde], ?_, ?_, ?_⟩
      · intro e0 hh _
        simp at hh
      · intro le hh _
        simp at hh
      · intro e0 le hh _ _ _
        simp at hh
  | cons e0' rest =>
      have hs' : (e0' :: rest).Pairwise (fun a b => bLt a.key b.key = true) := by
        rw [← hde]; exact hs
      have hpair : ∀ i j (hi : i < (e0' :: rest).length)
          (hj : j < (e0' :: rest).length), i < j →
          bLt ((e0' :: rest).get ⟨i, hi⟩).key
            ((e0' :: rest).get ⟨j, hj⟩).key = true := by
        intro i j hi hj hij
        exact List.pairwise_iff_getElem.mp hs' i j hi hj hij
      have hn1 : (e0' :: rest).length - 1 < (e0' :: rest).length := by simp
      have hle : (e0' :: rest).getLast? =
          some ((e0' :: rest).get ⟨(e0' :: rest).length - 1, hn1⟩) := by
        rw [List.getLast?_eq_getElem?]
        exact List.getElem?_eq_getElem hn1
      have hg0 : (e0' :: rest).get ⟨0, by simp⟩ = e0' := rfl
      have hfirst_le_last : bLt k e0'.key = true →
          bLt ((e0' :: rest).get ⟨(e0' :: rest).length - 1, hn1⟩).key k = true →
          False := by
        intro hb hkk
        rcases Nat.lt_or_ge 1 (e0' :: rest).length with hlen | hlen
        · have h01 := hpair 0 ((e0' :: rest).length - 1) (by simp) hn1 (by omega)
          rw [hg0] at h01
          have h2 := bLt_trans hb h01
          have h3 := bLt_asymm h2
          rw [h3] at hkk
          cases hkk
        · have hlen1 : (e0' :: rest).length = 1 := by
            have : 1 ≤ (e0' :: rest).length := by simp
            omega
          have hgeq : (e0' :: rest).get ⟨(e0' :: rest).length - 1, hn1⟩ =
              (e0' :: rest).get ⟨0, by simp⟩ := by
            congr 1
            exact Fin.ext (by omega)
          rw [hgeq, hg0] at hkk
          have := bLt_asymm hkk
          rw [this] at hb
          cases hb
      refine ⟨?_, ?_, ?_, ?_⟩
      · intro h; cases h
      · intro e0 hh hkk
        simp only [List.head?_cons, Option.some.injEq] at hh
        rw [← hh] at hkk
        simp [dirGetNextPage, hde, hle, hkk]
      · intro le hh hkk
        rw [hle] at hh
        simp only [Option.some.injEq] at hh
        rw [← hh] at hkk
        have hb : bLt k e0'.key = false := by
          cases hx : bLt k e0'.key with
          | false => rfl
          | true => exact absurd (hfirst_le_last hx hkk) (fun h => h)
        have hkk2 : bLt (e0' :: rest)[rest.length].key k = true := hkk
        have hle2 : (e0' :: rest)[rest.length] = le := hh
        simp only [dirGetNextPage, hde, hle, hb, Bool.false_eq_true,
          if_false, if_true]
        split
        · exact congrArg (fun e : DirEntry => some e.child) hle2
        · next hcon => exact absurd hkk2 hcon
      · intro e0 le hh hl hk0 hkl
        simp only [List.head?_cons, Option.some.injEq] at hh
        rw [hle] at hl
        simp only [Option.some.injEq] at hl
        rw [← hh] at hk0
        rw [← hl] at hkl
        have hkl2 : bLt (e0' :: rest)[rest.length].key k = false := hkl
        have hred : dirGetNextPage d k =
            dirFindGo (e0' :: rest) k ((e0' :: rest).length + 1) 0
              ((e0' :: rest).length - 1) := by
          simp [dirGetNextPage, hde, hle, hk0, hkl2]
        have h0 : ∀ x, (e0' :: rest)[0]? = some x → bLt k x.key = false := by
          intro x hx
          simp only [List.getElem?_cons_zero, Option.some.injEq] at hx
          rw [← hx]
          exact hk0
        obtain ⟨i, e, hie, hres, hlt, hgt⟩ :=
          dirFindGo_spec (e0' :: rest) k hs' h0 ((e0' :: rest).length + 1) 0
            ((e0' :: rest).length - 1) hn1 (by omega)
            (by simp)
            (fun i ei hi _ => absurd hi (by omega))
            (fun j ej hj hje => by
              rw [List.getElem?_eq_none (by simp at hj ⊢; omega)] at hje
              cases hje)
        exact ⟨i, e, hie, by rw [hred]; exact hres, hlt,
          fun j ej hj hij => hgt j ej hj hij⟩

/-- C8.  Directory routing (`TreeDirPage::get_next_page`) on a page whose
entries are strictly sorted by key: an empty page routes to `page_to_left`;
a search key below the first entry's key routes to `page_to_left`; a search
key above the last entry's key routes to the last entry's child; otherwise
the result is the child of the largest entry whose key is less than or
equal to the search key (the entry at some index `i` with `key_i ≤ k` and
`k < key_j` for every later index `j`). -/
theorem dir_next_page_routing (d : DirPage) (k : List Nat)
    (hs : d.entries.Pairwise (fun a b => bLt a.key b.key = true)) :
    (d.entries = [] → dirGetNextPage d k = some d.left) ∧
    (∀ e0, d.entries.head? = some e0 → bLt k e0.key = true →
      dirGetNextPage d k = some d.left) ∧
    (∀ le, d.entries.getLast? = some le → bLt le.key k = true →
      dirGetNextPage d k = some le.child) ∧
    (∀ e0 le, d.entries.head? = some e0 → d.entries.getLast? = some le →
      bLt k e0.key = false → bLt le.key k = false →
      ∃ (i : Nat) (e : DirEntry), d.entries[i]? = some e ∧
        dirGetNextPage d k = some e.child ∧ bLt k e.key = false ∧
        ∀ (j : Nat) (ej : DirEntry), d.entries[j]? = some ej → i < j →
          bLt k ej.key = true) :=
  dirRoute_char d k hs

theorem dir_next_page_routing_witness :
    ([⟨[3], 10⟩, ⟨[5], 20⟩, ⟨[7], 30⟩] : List DirEntry).Pairwise
      (fun a b => bLt a.key b.key = true) ∧
    dirGetNextPage ⟨9, 1, 5, [⟨[3], 10⟩, ⟨[5], 20⟩, ⟨[7], 30⟩], 0, 4096⟩ [2] =
      some 5 ∧
    dirGetNextPage ⟨9, 1, 5, [⟨[3], 10⟩, ⟨[5], 20⟩, ⟨[7], 30⟩], 0, 4096⟩ [8] =
      some 30 ∧
    ∃ (i : Nat) (e : DirEntry),
      ([⟨[3], 10⟩, ⟨[5], 20⟩, ⟨[7], 30⟩] : List DirEntry)[i]? = some e ∧
      dirGetNextPage ⟨9, 1, 5, [⟨[3], 10⟩, ⟨[5], 20⟩, ⟨[7], 30⟩], 0, 4096⟩ [6] =
        some e.child ∧ bLt [6] e.key = false ∧
      ∀ (j : Nat) (ej : DirEntry),
        ([⟨[3], 10⟩, ⟨[5], 20⟩, ⟨[7], 30⟩] : List DirEntry)[j]? = some ej →
        i < j → bLt [6] ej.key = true := by
  refine ⟨by decide, ?_, ?_, ?_⟩
  · exact (dir_next_page_routing ⟨9, 1, 5, [⟨[3], 10⟩, ⟨[5], 20⟩, ⟨[7], 30⟩], 0,
      4096⟩ [2] (by decide)).2.1 ⟨[3], 10⟩ (by decide) (by decide)
  · exact (dir_next_page_routing ⟨9, 1, 5, [⟨[3], 10⟩, ⟨[5], 20⟩, ⟨[7], 30⟩], 0,
      4096⟩ [8] (by decide)).2.2.1 ⟨[7], 30⟩ (by decide) (by decide)
  · exact (dir_next_page_routing ⟨9, 1, 5, [⟨[3], 10⟩, ⟨[5], 20⟩, ⟨[7], 30⟩], 0,
      4096⟩ [6] (by decide)).2.2.2 ⟨[3], 10⟩ ⟨[7], 30⟩ (by decide) (by decide)
      (by decide) (by decide)

theorem bLe_trans {a b c : List Nat} (h1 : bLt b a = false)
    (h2 : bLt c b = false) : bLt c a = false := by
  cases hca : bLt c a with
  | false => rfl
  | true =>
      exfalso
      cases hab : bLt a b with
      | true =>
          have := bLt_trans hca hab
          rw [this] at h2
          cases h2
      | false =>
          have hba : a = b := bLt_total hab h1
          rw [hba] at hca
          rw [hca] at h2
          cases h2

theorem bLt_of_le_of_lt {a b c : List Nat} (h1 : bLt b a = false)
    (h2 : bLt b c = true) : bLt a c = true := by
  cases hab : bLt a b with
  | true => exact bLt_trans hab h2
  | false =>
      have : a = b := bLt_total hab h1
      rw [this]
      exact h2

theorem bLt_of_lt_of_le {a b c : List Nat} (h1 : bLt a b = true)
    (h2 : bLt c b = false) : bLt a c = true := by
  cases hbc : bLt b c with
  | true => exact bLt_trans h1 hbc
  | false =>
      have : b = c := bLt_total hbc h2
      rw [← this]
      exact h1

/-! ### Delete path (`Db::delete`, `TreeDeleteHandler`): list-level model -/

/-- A stored tuple at parsed level. -/
structure TupleM where
  key : List Nat
  value : List Nat
  version : Nat
  overflow : Nat
deriving DecidableEq, Repr

/-- A tree page as the delete path sees it. -/
inductive PageM where
  | leaf (version : Nat) (tuples : List TupleM)
  | dir (d : DirPage)
deriving DecidableEq, Repr

/-- `PageCache::put_page`. -/
def diskPut (disk : Nat → Option PageM) (n : Nat) (pg : PageM) :
    Nat → Option PageM :=
  fun m => if m = n then some pg else disk m

/-- Database state: the page-cache view of the tree pages, the current
master's tree-root page number and version. -/
structure DState where
  disk : Nat → Option PageM
  root : Nat
  version : Nat

/-- `TreeLeafPage::get_tuple`: binary search with i32 cursors over the
page's sorted tuples; an exact key match returns the tuple, otherwise the
search ends with `None`.  The outer `none` is fuel exhaustion. -/
def leafFindGo (ts : List TupleM) (k : List Nat) :
    Nat → Int → Int → Option (Option TupleM)
  | 0, _, _ => none
  | fuel + 1, left, right =>
      if left ≤ right then
        match ts[(left + (right - left) / 2).toNat]? with
        | none => none
        | some t =>
            if t.key = k then some (some t)
            else if bLt t.key k then
              leafFindGo ts k fuel (left + (right - left) / 2 + 1) right
            else leafFindGo ts k fuel left (left + (right - left) / 2 - 1)
      else some none

def leafGetTupleM (ts : List TupleM) (k : List Nat) : Option (Option TupleM) :=
  leafFindGo ts k (ts.length + 1) 0 ((ts.length : Int) - 1)

/-- `TreeLeafPage::delete_key`: look the key up; if absent return `None`
without touching the page, else drop every tuple with that key. -/
def leafDeleteKeyM (ts : List TupleM) (k : List Nat) :
    Option (Option (TupleM × List TupleM)) :=
  match leafGetTupleM ts k with
  | none => none
  | some none => some none
  | some (some t) =>
      some (some (t, ts.filter (fun x => decide (x.key ≠ k))))

theorem leafFindGo_sound (ts : List TupleM) (k : List Nat) :
    ∀ fuel left right t, leafFindGo ts k fuel left right = some (some t) →
      t.key = k ∧ t ∈ ts := by
  intro fuel
  induction fuel with
  | zero => intro left right t h; cases h
  | succ fuel ih =>
      intro left right t h
      rw [leafFindGo] at h
      by_cases hlr : left ≤ right
      · rw [if_pos hlr] at h
        match hm : ts[(left + (right - left) / 2).toNat]? with
        | none => rw [hm] at h; cases h
        | some t0 =>
            rw [hm] at h
            simp only [] at h
            by_cases heq : t0.key = k
            · rw [if_pos heq] at h
              simp only [Option.some.injEq] at h
              rw [← h]
              refine ⟨heq, ?_⟩
              have := List.getElem?_eq_some.mp hm
              obtain ⟨hlt, hval⟩ := this
              rw [← hval]
              exact List.getElem_mem hlt
            · rw [if_neg heq] at h
              by_cases hbl : bLt t0.key k = true
              · rw [if_pos hbl] at h
                exact ih _ _ _ h
              · rw [if_neg hbl] at h
                exact ih _ _ _ h
      · rw [if_neg hlr] at h
        cases h

theorem leafFindGo_total (ts : List TupleM) (k : List Nat) :
    ∀ fuel (left right : Int), 0 ≤ left → right < (ts.length : Int) →
      (right + 1 - left).toNat < fuel →
      ∃ res, leafFindGo ts k fuel left right = some res := by
  intro fuel
  induction fuel with
  | zero => intro left right _ _ hf; omega
  | succ fuel ih =>
      intro left right hl hr hf
      rw [leafFindGo]
      by_cases hlr : left ≤ right
      · rw [if_pos hlr]
        have hmid0 : 0 ≤ left + (right - left) / 2 := by omega
        have hmidr : left + (right - left) / 2 ≤ right := by omega
        have hmlt : (left + (right - left) / 2).toNat < ts.length := by omega
        have hm : ts[(left + (right - left) / 2).toNat]? =
            some (ts.get ⟨(left + (right - left) / 2).toNat, hmlt⟩) := by
          rw [List.getElem?_eq_getElem hmlt]; rfl
        rw [hm]
        simp only []
        by_cases heq : (ts.get ⟨(left + (right - left) / 2).toNat, hmlt⟩).key = k
        · rw [if_pos heq]
          exact ⟨_, rfl⟩
        · rw [if_neg heq]
          by_cases hbl :
              bLt (ts.get ⟨(left + (right - left) / 2).toNat, hmlt⟩).key k = true
          · rw [if_pos hbl]
            exact ih _ _ (by omega) hr (by omega)
          · rw [if_neg hbl]
            exact ih _ _ hl (by omega) (by omega)
      · rw [if_neg hlr]
        exact ⟨none, rfl⟩

/-- A key absent from the tuples makes the leaf lookup return `None`. -/
theorem leafGetTupleM_absent (ts : List TupleM) (k : List Nat)
    (h : ∀ t ∈ ts, t.key ≠ k) : leafGetTupleM ts k = some none := by
  obtain ⟨res, hres⟩ := leafFindGo_total ts k (ts.length + 1) 0
    ((ts.length : Int) - 1) (by omega) (by omega) (by omega)
  match res with
  | none =>
      rw [leafGetTupleM, hres]
  | some t =>
      obtain ⟨hk, hmem⟩ := leafFindGo_sound ts k _ _ _ _ hres
      exact absurd hk (h t hmem)

theorem leafDeleteKeyM_absent (ts : List TupleM) (k : List Nat)
    (h : ∀ t ∈ ts, t.key ≠ k) : leafDeleteKeyM ts k = some none := by
  rw [leafDeleteKeyM, leafGetTupleM_absent ts k h]

/-- Binary-search loop of `TreeDirPage::set_page_no_for_key`, returning the
entry index to rewrite: the matching index, or on exit the index `right`
(the routing slot).  Same comparisons as `get_next_page`'s loop; the u16
underflow (`mid = 0` moving right down) is `none`. -/
def dirFindIdxGo (es : List DirEntry) (k : List Nat) :
    Nat → Nat → Nat → Option Nat
  | 0, _, _ => none
  | fuel + 1, left, right =>
      if left ≤ right then
        match es[left + (right - left) / 2]? with
        | none => none
        | some e =>
            if e.key = k then some (left + (right - left) / 2)
            else if bLt e.key k then
              dirFindIdxGo es k fuel (left + (right - left) / 2 + 1) right
            else if left + (right - left) / 2 = 0 then none
            else dirFindIdxGo es k fuel left (left + (right - left) / 2 - 1)
      else some right

theorem dirFindIdxGo_spec (es : List DirEntry) (k : List Nat)
    (hs : es.Pairwise (fun a b => bLt a.key b.key = true))
    (h0 : ∀ e0, es[0]? = some e0 → bLt k e0.key = false) :
    ∀ fuel left right, right < es.length → left ≤ right + 1 →
    right + 1 - left < fuel →
    (∀ i ei, i < left → es[i]? = some ei → bLt k ei.key = false) →
    (∀ j ej, right < j → es[j]? = some ej → bLt k ej.key = true) →
    ∃ (i : Nat) (e : DirEntry), es[i]? = some e ∧
      dirFindIdxGo es k fuel left right = some i ∧
      bLt k e.key = false ∧
      ∀ (j : Nat) (ej : DirEntry), es[j]? = some ej → i < j →
        bLt k ej.key = true := by
  have hpair : ∀ i j (hi : i < es.length) (hj : j < es.length), i < j →
      bLt (es.get ⟨i, hi⟩).key (es.get ⟨j, hj⟩).key = true := by
    intro i j hi hj hij
    exact List.pairwise_iff_getElem.mp hs i j hi hj hij
  intro fuel
  induction fuel with
  | zero => intro left right _ _ hf _ _; omega
  | succ fuel ih =>
      intro left right hr hlr hf hA hB
      rw [dirFindIdxGo]
      by_cases hcase : left ≤ right
      · rw [if_pos hcase]
        have hmlt : left + (right - left) / 2 < es.length := by omega
        have hmge : left ≤ left + (right - left) / 2 := by omega
        have hmle : left + (right - left) / 2 ≤ right := by omega
        have hme : es[left + (right - left) / 2]? =
            some (es.get ⟨left + (right - left) / 2, hmlt⟩) := by
          rw [List.getElem?_eq_getElem hmlt]; rfl
        rw [hme]
        simp only []
        by_cases heq : (es.get ⟨left + (right - left) / 2, hmlt⟩).key = k
        · rw [if_pos heq]
          refine ⟨left + (right - left) / 2,
            es.get ⟨left + (right - left) / 2, hmlt⟩, hme, rfl, ?_, ?_⟩
          · rw [heq]; exact bLt_irrefl k
          · intro j ej hj hij
            have hjlt : j < es.length := (List.getElem?_eq_some.mp hj).1
            have hej : ej = es.get ⟨j, hjlt⟩ := by
              rw [List.getElem?_eq_getElem hjlt] at hj
              exact (Option.some.injEq _ _ ▸ hj).symm
            rw [hej]
            have := hpair _ _ hmlt hjlt hij
            rw [heq] at this
            exact this
        · rw [if_neg heq]
          by_cases hlt : bLt (es.get ⟨left + (right - left) / 2, hmlt⟩).key k = true
          · rw [if_pos hlt]
            refine ih (left + (right - left) / 2 + 1) right hr (by omega)
              (by omega) ?_ hB
            intro i ei hi hie
            have hilt : i < es.length := (List.getElem?_eq_some.mp hie).1
            have hei : ei = es.get ⟨i, hilt⟩ := by
              rw [List.getElem?_eq_getElem hilt] at hie
              exact (Option.some.injEq _ _ ▸ hie).symm
            rcases Nat.lt_or_ge i left with hil | hil
            · exact hA i ei hil hie
            · rcases Nat.lt_or_ge i (left + (right - left) / 2) with him | him
              · have h1 := hpair _ _ hilt hmlt him
                have h2 := bLt_trans h1 hlt
                rw [hei]; exact bLt_asymm h2
              · have hieq : i = left + (right - left) / 2 := by omega
                rw [hei]
                have : es.get ⟨i, hilt⟩ = es.get ⟨left + (right - left) / 2, hmlt⟩ := by
                  congr 1
                  exact Fin.ext hieq
                rw [this]
                exact bLt_asymm hlt
          · rw [if_neg hlt]
            have hlt' : bLt (es.get ⟨left + (right - left) / 2, hmlt⟩).key k = false :=
              Bool.not_eq_true _ ▸ hlt
            have hgt : bLt k (es.get ⟨left + (right - left) / 2, hmlt⟩).key = true := by
              by_contra hc
              have hc' : bLt k (es.get ⟨left + (right - left) / 2, hmlt⟩).key = false :=
                Bool.not_eq_true _ ▸ hc
              exact heq (bLt_total hlt' hc')
            have hm0 : left + (right - left) / 2 ≠ 0 := by
              intro hz
              have h0lt : 0 < es.length := by omega
              have h00 : es[0]? = some (es.get ⟨0, h0lt⟩) := by
                rw [List.getElem?_eq_getElem h0lt]; rfl
              have hf0 := h0 _ h00
              have hgeq : es.get ⟨left + (right - left) / 2, hmlt⟩ =
                  es.get ⟨0, h0lt⟩ := by
                congr 1
                exact Fin.ext hz
              rw [hgeq, hf0] at hgt
              cases hgt
            rw [if_neg hm0]
            refine ih left (left + (right - left) / 2 - 1) (by omega) (by omega)
              (by omega) hA ?_
            intro j ej hj hje
            have hjlt : j < es.length := (List.getElem?_eq_some.mp hje).1
            have hej : ej = es.get ⟨j, hjlt⟩ := by
              rw [List.getElem?_eq_getElem hjlt] at hje
              exact (Option.some.injEq _ _ ▸ hje).symm
            rcases Nat.lt_or_ge j (left + (right - left) / 2 + 1) with hjm | hjm
            · have hjeq : j = left + (right - left) / 2 := by omega
              rw [hej]
              have : es.get ⟨j, hjlt⟩ = es.get ⟨left + (right - left) / 2, hmlt⟩ := by
                congr 1
                exact Fin.ext hjeq
              rw [this]
              exact hgt
            · have h1 := hpair _ _ hmlt hjlt (by omega)
              rw [hej]
              exact bLt_trans hgt h1
      · rw [if_neg hcase]
        have hre : es[right]? = some (es.get ⟨right, hr⟩) := by
          rw [List.getElem?_eq_getElem hr]; rfl
        exact ⟨right, es.get ⟨right, hr⟩, hre, rfl,
          hA right _ (by omega) hre, fun j ej hj hij => hB j ej hij hj⟩

/-- The routing slot of a strictly sorted page is unique: two indices whose
entry keys are at most the search key, all later keys above it, coincide. -/
theorem routeIdx_unique (es : List DirEntry) (k : List Nat)
    {i1 i2 : Nat} {e1 e2 : DirEntry}
    (h1 : es[i1]? = some e1) (h1k : bLt k e1.key = false)
    (h1u : ∀ j ej, es[j]? = some ej → i1 < j → bLt k ej.key = true)
    (h2 : es[i2]? = some e2) (h2k : bLt k e2.key = false)
    (h2u : ∀ j ej, es[j]? = some ej → i2 < j → bLt k ej.key = true) :
    i1 = i2 := by
  rcases Nat.lt_trichotomy i1 i2 with h | h | h
  · have := h1u i2 e2 h2 h
    rw [this] at h2k
    cases h2k
  · exact h
  · have := h2u i1 e1 h1 h
    rw [this] at h1k
    cases h1k

/-- `TreeDirPage::set_page_no_for_key` (asserts a nonempty page): the
routing slot for the key gets the new child page number, in place. -/
def dirSetPageNoForKey (d : DirPage) (k : List Nat) (p : Nat) :
    Option DirPage :=
  match d.entries with
  | [] => none
  | _ :: _ =>
      match dirFindIdxGo d.entries k (d.entries.length + 1) 0
          (d.entries.length - 1) with
      | none => none
      | some i =>
          match d.entries[i]? with
          | none => none
          | some e =>
              some { d with entries := d.entries.set i ⟨e.key, p⟩ }

/-- `TreeDirPage::add_entries` with a single entry (the only shape used on
the delete path: `can_fit_entries` is vacuous and the sortedness assert
trivial): an empty page records the child as `page_to_left`; a key below
the first entry's key updates `page_to_left`; otherwise the routing slot is
rewritten via `set_page_no_for_key`. -/
def dirAddEntriesSingle (d : DirPage) (e : DirEntry) : Option DirPage :=
  match d.entries with
  | [] => some { d with left := e.child }
  | e0 :: _ =>
      if bLt e.key e0.key then some { d with left := e.child }
      else dirSetPageNoForKey d e.key e.child

/-- Setting the routing slot for `k` to `p` succeeds on a sorted nonempty
page whose first key is at most `k`, keeps every key (and the page's other
fields), and afterwards the page routes `k` to `p`. -/
theorem dirSet_route (d : DirPage) (k : List Nat) (p : Nat)
    (hs : d.entries.Pairwise (fun a b => bLt a.key b.key = true))
    (hne : d.entries ≠ [])
    (hk0 : ∀ e0, d.entries.head? = some e0 → bLt k e0.key = false) :
    ∃ d', dirSetPageNoForKey d k p = some d' ∧
      dirGetNextPage d' k = some p ∧
      d'.entries.map (fun e => e.key) = d.entries.map (fun e => e.key) ∧
      d'.left = d.left ∧ d'.pageNo = d.pageNo := by
  match hde : d.entries with
  | [] => exact absurd hde hne
  | e0 :: rest =>
      have hlen : 0 < d.entries.length := by rw [hde]; simp
      have h0 : ∀ x, d.entries[0]? = some x → bLt k x.key = false := by
        intro x hx
        apply hk0
        rw [List.head?_eq_getElem? d.entries]
        exact hx
      obtain ⟨i, e, hie, hidx, hke, hgt⟩ :=
        dirFindIdxGo_spec d.entries k hs h0 (d.entries.length + 1) 0
          (d.entries.length - 1) (by omega) (by omega) (by omega)
          (fun i ei hi _ => absurd hi (by omega))
          (fun j ej hj hje => by
            rw [List.getElem?_eq_none (by omega)] at hje
            cases hje)
      have hilt : i < d.entries.length := (List.getElem?_eq_some.mp hie).1
      have hset : dirSetPageNoForKey d k p =
          some { d with entries := d.entries.set i ⟨e.key, p⟩ } := by
        rw [dirSetPageNoForKey]
        rw [hde]
        simp only []
        rw [← hde, hidx]
        simp only []
        rw [hie]
      set es' := d.entries.set i ⟨e.key, p⟩ with hes'
      have hkeys : es'.map (fun x => x.key) = d.entries.map (fun x => x.key) := by
        rw [hes', List.map_set]
        have : (d.entries.map (fun x => x.key))[i]? = some e.key := by
          rw [List.getElem?_map, hie]
          rfl
        apply List.ext_getElem?
        intro n
        rcases Nat.decEq i n with hin | hin
        · rw [List.getElem?_set_ne hin]
        · rw [← hin, List.getElem?_set_eq_of_lt _ (by simpa using hilt), this]
      have hlen' : es'.length = d.entries.length := List.length_set _ _ _
      have hs' : es'.Pairwise (fun a b => bLt a.key b.key = true) := by
        have h2 : (d.entries.map (fun x => x.key)).Pairwise
            (fun a b => bLt a b = true) := List.pairwise_map.mpr hs
        rw [← hkeys] at h2
        exact List.pairwise_map.mp h2
      have hii : es'[i]? = some ⟨e.key, p⟩ :=
        List.getElem?_set_eq_of_lt _ (by omega)
      have hothers : ∀ j, j ≠ i → es'[j]? = d.entries[j]? := by
        intro j hj
        exact List.getElem?_set_ne (fun h => hj h.symm)
      have hgt' : ∀ j ej, es'[j]? = some ej → i < j → bLt k ej.key = true := by
        intro j ej hj hij
        rw [hothers j (by omega)] at hj
        exact hgt j ej hj hij
      -- the routing characterization on the rewritten page
      have hd'ne : es' ≠ [] := by
        intro h
        rw [h] at hlen'
        simp at hlen'
        omega
      obtain ⟨e0x, hx0⟩ : ∃ x, es'.head? = some x := by
        match hh : es' with
        | [] => exact absurd rfl hd'ne
        | y :: ys => exact ⟨y, rfl⟩
      obtain ⟨lex, hxl⟩ : ∃ x, es'.getLast? = some x := by
        match hh : es' with
        | [] => exact absurd rfl hd'ne
        | y :: ys =>
            rw [List.getLast?_eq_getElem?]
            exact ⟨_, List.getElem?_eq_getElem (by simp)⟩
      have hx0k : bLt k e0x.key = false := by
        have h1 : es'[0]? = some e0x := by
          rw [← List.head?_eq_getElem? es']
          exact hx0
        rcases Nat.decEq 0 i with h00 | h00
        · rw [hothers 0 h00] at h1
          exact h0 _ h1
        · rw [← h00] at hii
          rw [hii] at h1
          simp only [Option.some.injEq] at h1
          rw [← h1]
          exact hke
      have hxl' : es'[es'.length - 1]? = some lex := by
        rw [← List.getLast?_eq_getElem? es']
        exact hxl
      have hke2 : bLt k (DirEntry.mk e.key p).key = false := hke
      have hroute : dirGetNextPage { d with entries := es' } k = some p := by
        have hchar := dirRoute_char { d with entries := es' } k hs'
        by_cases hlk : bLt lex.key k = true
        · have h3 := hchar.2.2.1 lex hxl hlk
          have hvac : ∀ j ej, es'[j]? = some ej → es'.length - 1 < j →
              bLt k ej.key = true := by
            intro j ej hj hij
            have := (List.getElem?_eq_some.mp hj).1
            omega
          have hieq : i = es'.length - 1 :=
            routeIdx_unique es' k hii hke2 hgt' hxl' (bLt_asymm hlk) hvac
          have hlex : lex = ⟨e.key, p⟩ := by
            rw [← hieq] at hxl'
            rw [hii] at hxl'
            simp only [Option.some.injEq] at hxl'
            exact hxl'.symm
          rw [h3, hlex]
        · have hlk' : bLt lex.key k = false := Bool.not_eq_true _ ▸ hlk
          obtain ⟨i2, e2, h2ie, hrt, h2k, h2u⟩ :=
            hchar.2.2.2 e0x lex hx0 hxl hx0k hlk'
          have hieq : i = i2 := routeIdx_unique es' k hii hke2 hgt' h2ie h2k h2u
          have he2 : e2 = ⟨e.key, p⟩ := by
            rw [← hieq] at h2ie
            rw [hii] at h2ie
            simp only [Option.some.injEq] at h2ie
            exact h2ie.symm
          rw [hrt, he2]
      refine ⟨{ d with entries := es' }, hset, hroute, ?_, rfl, rfl⟩
      rw [← hde]
      exact hkeys

/-- `add_entries` with the single entry `(k, p)` on a sorted page succeeds,
keeps every key, and afterwards the page routes `k` to `p`. -/
theorem dirAddSingle_route (d : DirPage) (k : List Nat) (p : Nat)
    (hs : d.entries.Pairwise (fun a b => bLt a.key b.key = true)) :
    ∃ d', dirAddEntriesSingle d ⟨k, p⟩ = some d' ∧
      dirGetNextPage d' k = some p ∧
      d'.entries.map (fun e => e.key) = d.entries.map (fun e => e.key) ∧
      d'.pageNo = d.pageNo := by
  match hde : d.entries with
  | [] =>
      refine ⟨{ d with left := p }, ?_, ?_, ?_, rfl⟩
      · rw [dirAddEntriesSingle, hde]
      · simp [dirGetNextPage, hde]
      · simp [hde]
  | e0 :: rest =>
      by_cases hk0 : bLt k e0.key = true
      · refine ⟨{ d with left := p }, ?_, ?_, ?_, rfl⟩
        · rw [dirAddEntriesSingle, hde]
          simp only []
          rw [if_pos hk0]
        · exact (dirRoute_char { d with left := p } k hs).2.1 e0
            (by show d.entries.head? = some e0; rw [hde]; rfl) hk0
        · simp [hde]
      · have hk0f : bLt k e0.key = false := Bool.not_eq_true _ ▸ hk0
        obtain ⟨d', hset, hroute, hkeys, _, hpno⟩ := dirSet_route d k p hs
          (by rw [hde]; simp)
          (by
            intro x hx
            rw [hde] at hx
            simp only [List.head?_cons, Option.some.injEq] at hx
            rw [← hx]
            exact hk0f)
        refine ⟨d', ?_, hroute, ?_, hpno⟩
        · rw [dirAddEntriesSingle, hde]
          simp only []
          rw [if_neg hk0]
          exact hset
        · rw [hde] at hkeys
          exact hkeys

theorem dirFindGo_mem (es : List DirEntry) (k : List Nat) :
    ∀ fuel left right res, dirFindGo es k fuel left right = some res →
      ∃ e ∈ es, res = e.child := by
  intro fuel
  induction fuel with
  | zero => intro left right res h; cases h
  | succ fuel ih =>
      intro left right res h
      rw [dirFindGo] at h
      by_cases hlr : left ≤ right
      · rw [if_pos hlr] at h
        match hm : es[left + (right - left) / 2]? with
        | none => rw [hm] at h; cases h
        | some e =>
            rw [hm] at h
            simp only [] at h
            have hmem : e ∈ es := by
              obtain ⟨hlt, hval⟩ := List.getElem?_eq_some.mp hm
              rw [← hval]
              exact List.getElem_mem hlt
            by_cases heq : e.key = k
            · rw [if_pos heq] at h
              simp only [Option.some.injEq] at h
              exact ⟨e, hmem, h.symm⟩
            · rw [if_neg heq] at h
              by_cases hbl : bLt e.key k = true
              · rw [if_pos hbl] at h
                exact ih _ _ _ h
              · rw [if_neg hbl] at h
                by_cases hz : left + (right - left) / 2 = 0
                · rw [if_pos hz] at h; cases h
                · rw [if_neg hz] at h
                  exact ih _ _ _ h
      · rw [if_neg hlr] at h
        match hm : es[right]? with
        | none => rw [hm] at h; cases h
        | some e =>
            rw [hm] at h
            simp only [Option.some.injEq] at h
            obtain ⟨hlt, hval⟩ := List.getElem?_eq_some.mp hm
            exact ⟨e, by rw [← hval]; exact List.getElem_mem hlt, h.symm⟩

/-- The routing result is the left child or some entry's child. -/
theorem dirRoute_mem (d : DirPage) (k : List Nat) (c : Nat)
    (h : dirGetNextPage d k = some c) :
    c = d.left ∨ ∃ e ∈ d.entries, c = e.child := by
  rw [dirGetNextPage] at h
  match hde : d.entries with
  | [] =>
      rw [hde] at h
      simp only [Option.some.injEq] at h
      exact Or.inl h.symm
  | e0 :: rest =>
      rw [hde] at h
      simp only [] at h
      match hle : (e0 :: rest).getLast? with
      | none => rw [hle] at h; cases h
      | some le =>
          rw [hle] at h
          simp only [] at h
          by_cases h1 : bLt k e0.key = true
          · rw [if_pos h1] at h
            simp only [Option.some.injEq] at h
            exact Or.inl h.symm
          · rw [if_neg h1] at h
            by_cases h2 : bLt le.key k = true
            · rw [if_pos h2] at h
              simp only [Option.some.injEq] at h
              exact Or.inr ⟨le, List.mem_of_mem_getLast? hle, h.symm⟩
            · rw [if_neg h2] at h
              obtain ⟨e, hmem, hc⟩ := dirFindGo_mem _ _ _ _ _ _ h
              exact Or.inr ⟨e, hmem, hc⟩

/-- Routing always succeeds on a sorted page. -/
theorem dirRoute_total (d : DirPage) (k : List Nat)
    (hs : d.entries.Pairwise (fun a b => bLt a.key b.key = true)) :
    ∃ c, dirGetNextPage d k = some c := by
  match hde : d.entries with
  | [] => exact ⟨d.left, (dirRoute_char d k hs).1 hde⟩
  | e0 :: rest =>
      have hh : d.entries.head? = some e0 := by rw [hde]; rfl
      have hlast : (e0 :: rest).length - 1 < (e0 :: rest).length := by simp
      have hle : d.entries.getLast? =
          some ((e0 :: rest).get ⟨(e0 :: rest).length - 1, hlast⟩) := by
        rw [hde, List.getLast?_eq_getElem?]
        exact List.getElem?_eq_getElem hlast
      by_cases h1 : bLt k e0.key = true
      · exact ⟨d.left, (dirRoute_char d k hs).2.1 e0 hh h1⟩
      · by_cases h2 : bLt ((e0 :: rest).get ⟨(e0 :: rest).length - 1, hlast⟩).key
            k = true
        · exact ⟨_, (dirRoute_char d k hs).2.2.1 _ hle h2⟩
        · obtain ⟨i, e, _, hrt, _, _⟩ := (dirRoute_char d k hs).2.2.2 e0 _ hh hle
            (Bool.not_eq_true _ ▸ h1) (Bool.not_eq_true _ ▸ h2)
          exact ⟨e.child, hrt⟩

/-- Descent loop of `TreeDeleteHandler::delete_key_from_tree`: push each
directory page, route with `get_next_page`, stop at the leaf page with its
contents and page number. -/
def descendD (disk : Nat → Option PageM) (k : List Nat) :
    Nat → DirPage → List DirPage →
    Option (List DirPage × Nat × Nat × List TupleM)
  | 0, _, _ => none
  | fuel + 1, d, stack =>
      match dirGetNextPage d k with
      | none => none
      | some np =>
          match disk np with
          | none => none
          | some (.leaf v ts) => some (stack ++ [d], np, v, ts)
          | some (.dir d2) => descendD disk k fuel d2 (stack ++ [d])

/-- Sum of serialized entry sizes plus their 2-byte slots. -/
def dirEntriesSize (es : List DirEntry) : Nat :=
  (es.map (fun e => dirEntrySize e + 2)).sum

/-- `TreeDirPage::remove_key_page`: with no entries the left child is
cleared (asserting it was the removed page); a key above the last entry
drops the last entry (the entry count is cut without crediting
`free_space`); a key below the first entry promotes the first entry's child
to `page_to_left` and rebuilds without entries carrying that child;
otherwise entries carrying the removed page number are filtered out and the
page rebuilt. -/
def dirRemoveKeyPage (d : DirPage) (k : List Nat) (pno : Nat) :
    Option DirPage :=
  match d.entries with
  | [] => if pno = d.left then some { d with left := 0 } else none
  | e0 :: _ =>
      match d.entries.getLast? with
      | none => none
      | some le =>
          if bLt le.key k then
            some { d with entries := d.entries.dropLast }
          else if bLt k e0.key then
            if pno = d.left then
              let kept := d.entries.filter (fun e => decide (e.child ≠ e0.child))
              some { d with left := e0.child, entries := kept, freeSpace := d.pageSize - 20 - dirEntriesSize kept }
            else none
          else
            let kept := d.entries.filter (fun e => decide (e.child ≠ pno))
            some { d with entries := kept, freeSpace := d.pageSize - 20 - dirEntriesSize kept }

/-- `TreeDirPage::is_empty`. -/
def dirIsEmpty (d : DirPage) : Bool :=
  d.left = 0

/-- `fix_stack_no_page_del` (the list is the descent stack deepest page
first, as `Vec::pop` hands them out): each directory gets the single entry
`(key, page below)`, a fresh page number and the commit version, and is
written back; the last number handed out is the new root. -/
def fixNoDelGo (alloc : Nat → Nat) (newV : Nat) (k : List Nat) :
    List DirPage → Nat → Nat → (Nat → Option PageM) →
    Option (Nat × Nat × (Nat → Option PageM))
  | [], idx, pno, disk => some (pno, idx, disk)
  | d :: rest, idx, pno, disk =>
      match dirAddEntriesSingle d ⟨k, pno⟩ with
      | none => none
      | some d1 =>
          fixNoDelGo alloc newV k rest (idx + 1) (alloc idx)
            (diskPut disk (alloc idx)
              (.dir { d1 with pageNo := alloc idx, version := newV }))

/-- Trim loop of `fix_stack_page_del` (deepest page first): remove the dead
child's slot; while pages empty out, retire them and continue upward; stop
at the first page left nonempty. -/
def trimStack (k : List Nat) :
    List DirPage → Nat → Option (Option (DirPage × List DirPage))
  | [], _ => some none
  | d :: rest, ptd =>
      match dirRemoveKeyPage d k ptd with
      | none => none
      | some d1 =>
          if dirIsEmpty d1 then trimStack k rest d1.pageNo
          else some (some (d1, rest))

/-- `fix_dir_stack` (deepest first; `new_page_no = 0` marks the first
iteration, whose entries are left as they are). -/
def fixDirStackGo (alloc : Nat → Nat) (newV : Nat) (k : List Nat) :
    List DirPage → Nat → Nat → (Nat → Option PageM) →
    Option (Nat × Nat × (Nat → Option PageM))
  | [], idx, pno, disk => some (pno, idx, disk)
  | d :: rest, idx, pno, disk =>
      if pno = 0 then
        fixDirStackGo alloc newV k rest (idx + 1) (alloc idx)
          (diskPut disk (alloc idx)
            (.dir { d with pageNo := alloc idx, version := newV }))
      else
        match dirAddEntriesSingle d ⟨k, pno⟩ with
        | none => none
        | some d1 =>
            fixDirStackGo alloc newV k rest (idx + 1) (alloc idx)
              (diskPut disk (alloc idx)
                (.dir { d1 with pageNo := alloc idx, version := newV }))

/-- `Db::delete` over the tree model: bump the version, descend, delete in
the leaf — returning the state unchanged with `false` when the key is
absent, exactly as the code returns before any page write — then
copy-on-write the path back up and commit the new root and version (the
master flip).  `alloc i` is the page number the free-page tracker hands to
the i-th `get_free_page` call. -/
def dbDelete (alloc : Nat → Nat) (fuel : Nat) (s : DState) (k : List Nat) :
    Option (DState × Bool) :=
  match s.disk s.root with
  | none => none
  | some (.leaf _ ts) =>
      match leafDeleteKeyM ts k with
      | none => none
      | some none => some (s, false)
      | some (some (_, ts')) =>
          some ({ disk := diskPut s.disk (alloc 0)
                    (.leaf (s.version + 1) ts'),
                  root := alloc 0, version := s.version + 1 }, true)
  | some (.dir d0) =>
      match descendD s.disk k fuel d0 [] with
      | none => none
      | some (stack, leafNo, _, ts) =>
          match leafDeleteKeyM ts k with
          | none => none
          | some none => some (s, false)
          | some (some (_, ts')) =>
              if ts' = [] then
                match trimStack k stack.reverse leafNo with
                | none => none
                | some none =>
                    some ({ disk := diskPut s.disk (alloc 0)
                              (.leaf (s.version + 1) []),
                            root := alloc 0, version := s.version + 1 }, true)
                | some (some (d1, rest)) =>
                    match fixDirStackGo alloc (s.version + 1) k (d1 :: rest)
                        0 0 s.disk with
                    | none => none
                    | some (newRoot, _, disk1) =>
                        some ({ disk := disk1, root := newRoot,
                                version := s.version + 1 }, true)
              else
                match fixNoDelGo alloc (s.version + 1) k stack.reverse 1
                    (alloc 0)
                    (diskPut s.disk (alloc 0) (.leaf (s.version + 1) ts')) with
                | none => none
                | some (newRoot, _, disk1) =>
                    some ({ disk := disk1, root := newRoot,
                            version := s.version + 1 }, true)

/-- `RouteTo disk k n p q`: from page `p`, following the routing of `k`
through `n` directory pages reaches page `q`. -/
def RouteTo (disk : Nat → Option PageM) (k : List Nat) :
    Nat → Nat → Nat → Prop
  | 0, p, q => p = q
  | n + 1, p, q => ∃ d, disk p = some (.dir d) ∧
      ∃ np, dirGetNextPage d k = some np ∧ RouteTo disk k n np q

theorem routeTo_snoc (disk : Nat → Option PageM) (k : List Nat) :
    ∀ n p q r d, RouteTo disk k n p q → disk q = some (.dir d) →
    dirGetNextPage d k = some r → RouteTo disk k (n + 1) p r := by
  intro n
  induction n with
  | zero =>
      intro p q r d h hq hr
      rw [RouteTo] at h
      rw [h]
      exact ⟨d, hq, r, hr, rfl⟩
  | succ n ih =>
      intro p q r d h hq hr
      obtain ⟨d0, hd0, np, hnp, hrest⟩ := h
      exact ⟨d0, hd0, np, hnp, ih np q r d hrest hq hr⟩

theorem route_descend (disk : Nat → Option PageM) (k : List Nat)
    (v : Nat) (ts : List TupleM) :
    ∀ n fuel d p q acc, n < fuel → RouteTo disk k (n + 1) p q →
    disk p = some (.dir d) → disk q = some (.leaf v ts) →
    ∃ ds, descendD disk k fuel d acc = some (acc ++ ds, q, v, ts) := by
  intro n
  induction n with
  | zero =>
      intro fuel d p q acc hf hr hp hq
      obtain ⟨d', hd', np, hnp, h0⟩ := hr
      rw [RouteTo] at h0
      rw [hp] at hd'
      simp only [Option.some.injEq, PageM.dir.injEq] at hd'
      rw [← hd'] at hnp
      match fuel, hf with
      | f + 1, _ =>
          refine ⟨[d], ?_⟩
          rw [descendD, hnp]
          simp only []
          rw [h0, hq]
  | succ n ih =>
      intro fuel d p q acc hf hr hp hq
      obtain ⟨d', hd', np, hnp, hrest⟩ := hr
      rw [hp] at hd'
      simp only [Option.some.injEq, PageM.dir.injEq] at hd'
      rw [← hd'] at hnp
      obtain ⟨d2, hd2, np2, hnp2, hr2⟩ := hrest
      have hrest' : RouteTo disk k (n + 1) np q := ⟨d2, hd2, np2, hnp2, hr2⟩
      match fuel, hf with
      | f + 1, hf =>
          obtain ⟨ds', hds'⟩ := ih f d2 np q (acc ++ [d]) (by omega) hrest' hd2 hq
          refine ⟨d :: ds', ?_⟩
          rw [descendD, hnp]
          simp only []
          rw [hd2]
          simp only []
          rw [hds']
          rw [List.append_assoc]
          rfl

theorem route_descend_dir (disk : Nat → Option PageM) (k : List Nat)
    (dq : DirPage) :
    ∀ n fuel d p q acc, n ≤ fuel → RouteTo disk k n p q →
    disk p = some (.dir d) → disk q = some (.dir dq) →
    ∃ ds, descendD disk k fuel d acc =
      descendD disk k (fuel - n) dq (acc ++ ds) := by
  intro n
  induction n with
  | zero =>
      intro fuel d p q acc _ hr hp hq
      rw [RouteTo] at hr
      rw [hr] at hp
      rw [hp] at hq
      simp only [Option.some.injEq, PageM.dir.injEq] at hq
      refine ⟨[], ?_⟩
      rw [hq, List.append_nil, Nat.sub_zero]
  | succ n ih =>
      intro fuel d p q acc hf hr hp hq
      obtain ⟨d', hd', np, hnp, hrest⟩ := hr
      rw [hp] at hd'
      simp only [Option.some.injEq, PageM.dir.injEq] at hd'
      rw [← hd'] at hnp
      have hnpdir : ∃ dx, disk np = some (.dir dx) ∧ RouteTo disk k n np q := by
        cases n with
        | zero =>
            rw [RouteTo] at hrest
            exact ⟨dq, by rw [hrest]; exact hq, hrest⟩
        | succ m =>
            obtain ⟨d2, hd2, np2, hnp2, hr2⟩ := hrest
            exact ⟨d2, hd2, d2, hd2, np2, hnp2, hr2⟩
      obtain ⟨dx, hdx, hrest'⟩ := hnpdir
      match fuel, hf with
      | f + 1, hf =>
          obtain ⟨ds', hds'⟩ := ih f dx np q (acc ++ [d]) (by omega) hrest' hdx hq
          refine ⟨d :: ds', ?_⟩
          rw [descendD, hnp]
          simp only []
          rw [hdx]
          simp only []
          rw [hds']
          rw [List.append_assoc]
          have hsub : f + 1 - (n + 1) = f - n := by omega
          rw [hsub]
          rfl

/-- The copy-on-write rewrite of the descent stack (deepest first): it
succeeds, writes only freshly allocated page numbers, and afterwards the
returned root routes the key down the new chain to the page below the
stack. -/
theorem fixNoDel_spec (alloc : Nat → Nat) (newV : Nat) (k : List Nat)
    (hinj : ∀ i j, alloc i = alloc j → i = j) :
    ∀ st idx pno disk,
    (∀ d ∈ st, d.entries.Pairwise (fun a b => bLt a.key b.key = true)) →
    ∃ root' disk',
      fixNoDelGo alloc newV k st idx pno disk =
        some (root', idx + st.length, disk') ∧
      RouteTo disk' k st.length root' pno ∧
      (∀ K, (∀ j, idx ≤ j → K ≠ alloc j) → disk' K = disk K) := by
  intro st
  induction st with
  | nil =>
      intro idx pno disk _
      exact ⟨pno, disk, rfl, rfl, fun K _ => rfl⟩
  | cons d rest ih =>
      intro idx pno disk hsort
      obtain ⟨d1, hadd, hroute1, hkeys1, _⟩ :=
        dirAddSingle_route d k pno (hsort d (by simp))
      obtain ⟨root', disk', heq, hroute, hpres⟩ :=
        ih (idx + 1) (alloc idx)
          (diskPut disk (alloc idx)
            (.dir { d1 with pageNo := alloc idx, version := newV }))
          (fun x hx => hsort x (by simp [hx]))
      refine ⟨root', disk', ?_, ?_, ?_⟩
      · rw [fixNoDelGo, hadd]
        simp only []
        rw [heq]
        congr 2
        simp
        omega
      · have hda : disk' (alloc idx) =
            some (.dir { d1 with pageNo := alloc idx, version := newV }) := by
          rw [hpres (alloc idx) (fun j hj h => by
            have := hinj _ _ h
            omega)]
          rw [diskPut]
          simp
        exact routeTo_snoc disk' k rest.length root' (alloc idx) pno
          { d1 with pageNo := alloc idx, version := newV } hroute hda hroute1
      · intro K hK
        rw [hpres K (fun j hj => hK j (by omega))]
        rw [diskPut]
        simp only [ite_eq_right_iff]
        intro hKa
        exact absurd hKa (hK idx (le_refl _))

/-- With a nonzero page below, `fix_dir_stack` behaves as the no-deletion
rewrite (every iteration takes the entry-update branch). -/
theorem fixDirStack_eq_fixNoDel (alloc : Nat → Nat) (newV : Nat)
    (k : List Nat) (h0 : ∀ i, alloc i ≠ 0) :
    ∀ st idx pno disk, pno ≠ 0 →
    fixDirStackGo alloc newV k st idx pno disk =
      fixNoDelGo alloc newV k st idx pno disk := by
  intro st
  induction st with
  | nil => intro idx pno disk _; rfl
  | cons d rest ih =>
      intro idx pno disk hp
      rw [fixDirStackGo, fixNoDelGo]
      rw [if_neg hp]
      match dirAddEntriesSingle d ⟨k, pno⟩ with
      | none => rfl
      | some d1 => exact ih (idx + 1) (alloc idx) _ (h0 idx)

/-- `k` lies in the half-open key interval `[lo, hi)` (an absent bound is
infinite): at least the lower bound, strictly below the upper. -/
def keyInBoundsB (k : List Nat) (lo hi : Option (List Nat)) : Bool :=
  (match lo with
   | none => true
   | some a => ! bLt k a) &&
  (match hi with
   | none => true
   | some b => bLt k b)

theorem kib_iff (k : List Nat) (lo hi : Option (List Nat)) :
    keyInBoundsB k lo hi = true ↔
      (∀ a, lo = some a → bLt k a = false) ∧
      (∀ b, hi = some b → bLt k b = true) := by
  cases lo <;> cases hi <;>
    simp [keyInBoundsB, Bool.not_eq_true']

/-- Structural invariant of the subtree rooted at page `p`, with key
interval `[lo, hi)` and height bound `fuel`: pages exist and are nonzero,
a leaf is sorted with in-interval keys; a directory records its own page
number, has a nonzero left child, pairwise-distinct nonzero children,
strictly sorted in-interval keys, and each child's subtree lives in the
matching subinterval. -/
def TreeInv (disk : Nat → Option PageM) :
    Nat → Nat → Option (List Nat) → Option (List Nat) → Prop
  | 0, _, _, _ => False
  | fuel + 1, p, lo, hi =>
      p ≠ 0 ∧
      match disk p with
      | none => False
      | some (.leaf _ ts) =>
          ts.Pairwise (fun a b => bLt a.key b.key = true) ∧
          ∀ t ∈ ts, keyInBoundsB t.key lo hi = true
      | some (.dir d) =>
          d.pageNo = p ∧
          d.left ≠ 0 ∧
          (d.left :: d.entries.map (fun e => e.child)).Nodup ∧
          d.entries.Pairwise (fun a b => bLt a.key b.key = true) ∧
          (∀ e ∈ d.entries, keyInBoundsB e.key lo hi = true ∧ e.child ≠ 0) ∧
          TreeInv disk fuel d.left lo
            (match d.entries.head? with
             | some e0 => some e0.key
             | none => hi) ∧
          (∀ i e, d.entries[i]? = some e →
            TreeInv disk fuel e.child (some e.key)
              (match d.entries[i+1]? with
               | some e2 => some e2.key
               | none => hi))

/-- Removing the routing slot for `k` (whose child page `ptd` the routing
selected) from a sorted page with distinct children: the removal succeeds
and keeps the page number; an empty page empties out; a page with entries
keeps a nonzero left child and stays sorted, and every child the trimmed
page can still route `k` to is an original child at whose key interval `k`
lies outside: the left child with `k` at least the first key, or entry `j`
with `k` at least key `j+1`, or entry `j` with `k` below key `j`. -/
theorem dirRemove_route_excluded (d : DirPage) (k : List Nat) (ptd : Nat)
    (hs : d.entries.Pairwise (fun a b => bLt a.key b.key = true))
    (hnd : (d.left :: d.entries.map (fun e => e.child)).Nodup)
    (hl : d.left ≠ 0)
    (hcz : ∀ e ∈ d.entries, e.child ≠ 0)
    (hroute : dirGetNextPage d k = some ptd) :
    ∃ d1, dirRemoveKeyPage d k ptd = some d1 ∧ d1.pageNo = d.pageNo ∧
      (d.entries = [] → d1.left = 0) ∧
      (d.entries ≠ [] → d1.left ≠ 0 ∧
        d1.entries.Pairwise (fun a b => bLt a.key b.key = true) ∧
        ∀ c, dirGetNextPage d1 k = some c →
          (c = d.left ∧ ∃ e0, d.entries.head? = some e0 ∧
            bLt k e0.key = false) ∨
          (∃ j ej, d.entries[j]? = some ej ∧ c = ej.child ∧
            ((∃ ej1, d.entries[j + 1]? = some ej1 ∧ bLt k ej1.key = false) ∨
             bLt k ej.key = true))) := by
  by_cases hempty : d.entries = []
  · have hptd : ptd = d.left := by
      have h1 := (dirRoute_char d k hs).1 hempty
      rw [hroute] at h1
      simp only [Option.some.injEq] at h1
      exact h1
    refine ⟨{ d with left := 0 }, ?_, rfl, fun _ => rfl,
      fun hne => absurd hempty hne⟩
    rw [dirRemoveKeyPage, hempty]
    simp only []
    rw [if_pos hptd]
  · obtain ⟨e0, rest, hde⟩ : ∃ e0 rest, d.entries = e0 :: rest := by
      match hx : d.entries with
      | [] => exact absurd hx hempty
      | y :: ys => exact ⟨y, ys, rfl⟩
    have hn : 0 < d.entries.length := by rw [hde]; simp
    have hlastlt : d.entries.length - 1 < d.entries.length := by omega
    have hle : d.entries.getLast? =
        some (d.entries.get ⟨d.entries.length - 1, hlastlt⟩) := by
      rw [List.getLast?_eq_getElem?]
      exact List.getElem?_eq_getElem hlastlt
    have hpair : ∀ i j (hi : i < d.entries.length) (hj : j < d.entries.length),
        i < j → bLt (d.entries.get ⟨i, hi⟩).key (d.entries.get ⟨j, hj⟩).key
          = true := by
      intro i j hi hj hij
      exact List.pairwise_iff_getElem.mp hs i j hi hj hij
    have hhead : d.entries.head? = some e0 := by rw [hde]; rfl
    have hE0 : d.entries[0]? = some e0 := by
      rw [← List.head?_eq_getElem?]
      exact hhead
    have he0get : d.entries.get ⟨0, hn⟩ = e0 := by
      rw [List.getElem?_eq_getElem hn] at hE0
      simp only [Option.some.injEq] at hE0
      exact hE0
    have he0le :
        bLt (d.entries.get ⟨d.entries.length - 1, hlastlt⟩).key e0.key
          = false := by
      rcases Nat.lt_or_ge 1 d.entries.length with h2 | h2
      · have := hpair 0 (d.entries.length - 1) hn hlastlt (by omega)
        rw [he0get] at this
        exact bLt_asymm this
      · have h1 : d.entries.length - 1 = 0 := by omega
        have : d.entries.get ⟨d.entries.length - 1, hlastlt⟩ =
            d.entries.get ⟨0, hn⟩ := by
          congr 1
          exact Fin.ext h1
        rw [this, he0get]
        exact bLt_irrefl e0.key
    by_cases hC :
        bLt (d.entries.get ⟨d.entries.length - 1, hlastlt⟩).key k = true
    · -- key above the last entry: the last entry is dropped
      refine ⟨{ d with entries := d.entries.dropLast }, ?_, rfl, ?_, ?_⟩
      · rw [dirRemoveKeyPage, hde]
        simp only []
        rw [← hde, hle]
        simp only []
        rw [if_pos hC]
      · intro h; exact absurd h hempty
      · intro _
        refine ⟨hl, hs.sublist (List.dropLast_sublist d.entries), ?_⟩
        intro c hc
        rcases dirRoute_mem _ k c hc with hcl | ⟨e', hmem', hc'⟩
        · -- routes to the left child: k is at least the first key
          left
          refine ⟨hcl, e0, hhead, ?_⟩
          have h1 : bLt e0.key k = true := bLt_of_le_of_lt he0le hC
          exact bLt_asymm h1
        · -- routes to a surviving entry: k is at least the next key
          right
          obtain ⟨j, hj, hje⟩ := List.getElem_of_mem hmem'
          have hjlt : j < d.entries.length - 1 := by
            have hj2 : j < d.entries.dropLast.length := hj
            have hLd := List.length_dropLast d.entries
            omega
          have hjE : d.entries[j]? = some e' := by
            have h1 : d.entries.dropLast[j]? = some e' := by
              rw [List.getElem?_eq_getElem hj, hje]
            rw [List.getElem?_dropLast] at h1
            rw [if_pos hjlt] at h1
            exact h1
          have hj1lt : j + 1 < d.entries.length := by omega
          have hj1E : d.entries[j + 1]? =
              some (d.entries.get ⟨j + 1, hj1lt⟩) := by
            rw [List.getElem?_eq_getElem hj1lt]; rfl
          refine ⟨j, e', hjE, hc', Or.inl ⟨_, hj1E, ?_⟩⟩
          have hj1le :
              bLt (d.entries.get ⟨d.entries.length - 1, hlastlt⟩).key
                (d.entries.get ⟨j + 1, hj1lt⟩).key = false := by
            rcases Nat.lt_or_ge (j + 1) (d.entries.length - 1) with h3 | h3
            · exact bLt_asymm (hpair _ _ hj1lt hlastlt h3)
            · have : d.entries.get ⟨j + 1, hj1lt⟩ =
                  d.entries.get ⟨d.entries.length - 1, hlastlt⟩ := by
                congr 1
                exact Fin.ext (show j + 1 = d.entries.length - 1 by omega)
              rw [this]
              exact bLt_irrefl _
          exact bLt_asymm (bLt_of_le_of_lt hj1le hC)
    · by_cases hB : bLt k e0.key = true
      · -- key below the first entry: left child replaced by entry 0's child
        have hptd : ptd = d.left := by
          have h1 := (dirRoute_char d k hs).2.1 e0 hhead hB
          rw [hroute] at h1
          simp only [Option.some.injEq] at h1
          exact h1
        have hnodupc : e0.child ∉ rest.map (fun e => e.child) := by
          have h1 := (List.nodup_cons.mp hnd).2
          rw [hde] at h1
          simp only [List.map_cons] at h1
          exact (List.nodup_cons.mp h1).1
        have hfilter : d.entries.filter
            (fun e => decide (e.child ≠ e0.child)) = rest := by
          rw [hde, List.filter_cons]
          have hc0 : decide (e0.child ≠ e0.child) = false := by simp
          rw [hc0]
          simp only [Bool.false_eq_true, if_false]
          apply List.filter_eq_self.mpr
          intro e' hmem'
          simp only [ne_eq, decide_eq_true_eq]
          intro hcontra
          exact hnodupc (by
            rw [← hcontra]
            exact List.mem_map.mpr ⟨e', hmem', rfl⟩)
        refine ⟨{ d with left := e0.child, entries := rest, freeSpace := d.pageSize - 20 - dirEntriesSize rest }, ?_, rfl, ?_, ?_⟩
        · rw [dirRemoveKeyPage, hde]
          simp only []
          rw [← hde, hle]
          simp only []
          rw [if_neg hC, if_pos hB, if_pos hptd]
          rw [hfilter]
        · intro h; exact absurd h hempty
        · intro _
          have hsrest : rest.Pairwise (fun a b => bLt a.key b.key = true) := by
            have := hs
            rw [hde] at this
            exact this.of_cons
          have hkrest : ∀ e' ∈ rest, bLt k e'.key = true := by
            intro e' hmem'
            have := hs
            rw [hde] at this
            have h1 := (List.pairwise_cons.mp this).1 e' hmem'
            exact bLt_trans hB h1
          refine ⟨?_, ?_, ?_⟩
          · exact hcz e0 (by rw [hde]; simp)
          · exact hsrest
          · intro c hc
            rcases dirRoute_mem _ k c hc with hcl | ⟨e', hmem', hc'⟩
            · -- the new left child is entry 0's child; k is below its key
              right
              exact ⟨0, e0, hE0, hcl, Or.inr hB⟩
            · right
              simp only [hfilter] at hmem'
              obtain ⟨j', hj', hje'⟩ := List.getElem_of_mem hmem'
              have hjE : d.entries[j' + 1]? = some e' := by
                rw [hde]
                simp only [List.getElem?_cons_succ]
                rw [List.getElem?_eq_getElem hj', hje']
              exact ⟨j' + 1, e', hjE, hc', Or.inr (hkrest e' hmem')⟩
      · -- key within the entries: the canonical slot's child is filtered out
        obtain ⟨i, ei, hie, hrt, hki, hgti⟩ :=
          (dirRoute_char d k hs).2.2.2 e0 _ hhead hle
            (Bool.not_eq_true _ ▸ hB) (Bool.not_eq_true _ ▸ hC)
        have hptd : ptd = ei.child := by
          rw [hroute] at hrt
          simp only [Option.some.injEq] at hrt
          exact hrt
        refine ⟨{ d with entries := d.entries.filter (fun e => decide (e.child ≠ ptd)), freeSpace := d.pageSize - 20 - dirEntriesSize (d.entries.filter (fun e => decide (e.child ≠ ptd))) }, ?_, rfl, ?_, ?_⟩
        · rw [dirRemoveKeyPage, hde]
          simp only []
          rw [← hde, hle]
          simp only []
          rw [if_neg hC, if_neg hB]
        · intro h; exact absurd h hempty
        · intro _
          refine ⟨hl, hs.sublist (List.filter_sublist d.entries), ?_⟩
          intro c hc
          rcases dirRoute_mem _ k c hc with hcl | ⟨e', hmem', hc'⟩
          · left
            exact ⟨hcl, e0, hhead, Bool.not_eq_true _ ▸ hB⟩
          · right
            have hmem2 := List.mem_filter.mp hmem'
            have hne' : e'.child ≠ ptd := by
              have := hmem2.2
              simp only [ne_eq, decide_eq_true_eq] at this
              exact this
            obtain ⟨j, hj, hje⟩ := List.getElem_of_mem hmem2.1
            have hjE : d.entries[j]? = some e' := by
              rw [List.getElem?_eq_getElem hj, hje]
            have hilt : i < d.entries.length := (List.getElem?_eq_some.mp hie).1
            have hji : j ≠ i := by
              intro h
              rw [h, hie] at hjE
              simp only [Option.some.injEq] at hjE
              exact hne' (by rw [← hjE, hptd])
            rcases Nat.lt_or_ge j i with hji' | hji'
            · -- j below the canonical slot: k is at least key (j+1)
              have hj1lt : j + 1 < d.entries.length := by omega
              have hj1E : d.entries[j + 1]? =
                  some (d.entries.get ⟨j + 1, hj1lt⟩) := by
                rw [List.getElem?_eq_getElem hj1lt]; rfl
              refine ⟨j, e', hjE, hc', Or.inl ⟨_, hj1E, ?_⟩⟩
              have heile : bLt ei.key (d.entries.get ⟨j + 1, hj1lt⟩).key
                  = false := by
                rcases Nat.lt_or_ge (j + 1) i with h3 | h3
                · have hei : ei = d.entries.get ⟨i, hilt⟩ := by
                    rw [List.getElem?_eq_getElem hilt] at hie
                    simp only [Option.some.injEq] at hie
                    exact hie.symm
                  rw [hei]
                  exact bLt_asymm (hpair _ _ hj1lt hilt h3)
                · have h4 : j + 1 = i := by omega
                  have : d.entries.get ⟨j + 1, hj1lt⟩ =
                      d.entries.get ⟨i, hilt⟩ := by
                    congr 1
                    exact Fin.ext h4
                  rw [this]
                  have hei : ei = d.entries.get ⟨i, hilt⟩ := by
                    rw [List.getElem?_eq_getElem hilt] at hie
                    simp only [Option.some.injEq] at hie
                    exact hie.symm
                  rw [← hei]
                  exact bLt_irrefl _
              exact bLe_trans heile hki
            · -- j above the canonical slot: k is below key j
              have : i < j := by omega
              exact ⟨j, e', hjE, hc', Or.inr (hgti j e' hjE this)⟩

theorem treeInv_ne_none (disk : Nat → Option PageM) (fI p : Nat)
    (lo hi : Option (List Nat)) (h : TreeInv disk fI p lo hi) :
    disk p ≠ none := by
  match fI with
  | 0 => exact absurd h (by rw [TreeInv]; exact fun h => h)
  | fuel + 1 =>
      rw [TreeInv] at h
      intro hn
      rw [hn] at h
      exact h.2

theorem treeInv_leaf (disk : Nat → Option PageM) (fI p : Nat)
    (lo hi : Option (List Nat)) (v : Nat) (ts : List TupleM)
    (h : TreeInv disk fI p lo hi) (hp : disk p = some (.leaf v ts)) :
    ts.Pairwise (fun a b => bLt a.key b.key = true) ∧
    ∀ t ∈ ts, keyInBoundsB t.key lo hi = true := by
  match fI with
  | 0 => exact absurd h (by rw [TreeInv]; exact fun h => h)
  | fuel + 1 =>
      rw [TreeInv] at h
      rw [hp] at h
      exact h.2

theorem treeInv_dir (disk : Nat → Option PageM) (fI p : Nat)
    (lo hi : Option (List Nat)) (d : DirPage)
    (h : TreeInv disk fI p lo hi) (hp : disk p = some (.dir d)) :
    0 < fI ∧ d.pageNo = p ∧ d.left ≠ 0 ∧
    (d.left :: d.entries.map (fun e => e.child)).Nodup ∧
    d.entries.Pairwise (fun a b => bLt a.key b.key = true) ∧
    (∀ e ∈ d.entries, keyInBoundsB e.key lo hi = true ∧ e.child ≠ 0) ∧
    TreeInv disk (fI - 1) d.left lo
      (match d.entries.head? with
       | some e0 => some e0.key
       | none => hi) ∧
    (∀ i e, d.entries[i]? = some e →
      TreeInv disk (fI - 1) e.child (some e.key)
        (match d.entries[i+1]? with
         | some e2 => some e2.key
         | none => hi)) := by
  match fI with
  | 0 => exact absurd h (by rw [TreeInv]; exact fun h => h)
  | fuel + 1 =>
      rw [TreeInv] at h
      rw [hp] at h
      obtain ⟨_, h1, h2, h3, h4, h5, h6, h7⟩ := h
      exact ⟨by omega, h1, h2, h3, h4, h5, h6, h7⟩

/-- The invariant only looks at pages present on disk, so it transfers to
any disk agreeing on present pages. -/
theorem treeInv_ext (disk disk' : Nat → Option PageM)
    (hagree : ∀ p, disk p ≠ none → disk' p = disk p) :
    ∀ fI p lo hi, TreeInv disk fI p lo hi → TreeInv disk' fI p lo hi := by
  intro fI
  induction fI with
  | zero => intro p lo hi h; exact absurd h (by rw [TreeInv]; exact fun h => h)
  | succ fuel ih =>
      intro p lo hi h
      rw [TreeInv] at h ⊢
      match hdp : disk p with
      | none => rw [hdp] at h; exact absurd h.2 (fun h => h)
      | some pg =>
          have h' : disk' p = some pg := by
            rw [hagree p (by rw [hdp]; exact fun h => nomatch h)]
            exact hdp
          rw [hdp] at h
          rw [h']
          match pg with
          | .leaf v ts => exact h
          | .dir d =>
              obtain ⟨hp0, h1, h2, h3, h4, h5, h6, h7⟩ := h
              exact ⟨hp0, h1, h2, h3, h4, h5,
                ih _ _ _ h6, fun i e hie => ih _ _ _ (h7 i e hie)⟩

theorem kib_upper_false (k b : List Nat) (lo : Option (List Nat))
    (h : bLt k b = false) : keyInBoundsB k lo (some b) = false := by
  cases lo <;> simp [keyInBoundsB, h]

theorem kib_lower_false (k a : List Nat) (hi : Option (List Nat))
    (h : bLt k a = true) : keyInBoundsB k (some a) hi = false := by
  cases hi <;> simp [keyInBoundsB, h]

/-- A key outside the page's interval is outside the left child's
subinterval. -/
theorem excl_left (k : List Nat) (lo hi : Option (List Nat))
    (es : List DirEntry)
    (hbounds : ∀ e ∈ es, keyInBoundsB e.key lo hi = true)
    (hex : keyInBoundsB k lo hi = false) :
    keyInBoundsB k lo
      (match es.head? with
       | some e0 => some e0.key
       | none => hi) = false := by
  match hes : es with
  | [] => exact hex
  | e0 :: rest =>
      simp only [List.head?_cons]
      cases hkk : keyInBoundsB k lo (some e0.key) with
      | false => rfl
      | true =>
          exfalso
          obtain ⟨hlo, hup⟩ := (kib_iff _ _ _).mp hkk
          have he0 := (kib_iff _ _ _).mp (hbounds e0 (by simp))
          have : keyInBoundsB k lo hi = true := by
            rw [kib_iff]
            refine ⟨hlo, ?_⟩
            intro b hb
            exact bLt_trans (hup e0.key rfl) (he0.2 b hb)
          rw [this] at hex
          cases hex

/-- A key outside the page's interval is outside entry `i`'s subinterval. -/
theorem excl_entry (k : List Nat) (lo hi : Option (List Nat))
    (es : List DirEntry) (i : Nat) (e : DirEntry) (hie : es[i]? = some e)
    (hbounds : ∀ x ∈ es, keyInBoundsB x.key lo hi = true)
    (hex : keyInBoundsB k lo hi = false) :
    keyInBoundsB k (some e.key)
      (match es[i+1]? with
       | some e2 => some e2.key
       | none => hi) = false := by
  have hmem : e ∈ es := by
    obtain ⟨hlt, hval⟩ := List.getElem?_eq_some.mp hie
    rw [← hval]
    exact List.getElem_mem hlt
  have hebounds := (kib_iff _ _ _).mp (hbounds e hmem)
  cases hkk : keyInBoundsB k (some e.key)
      (match es[i+1]? with
       | some e2 => some e2.key
       | none => hi) with
  | false => rfl
  | true =>
      exfalso
      obtain ⟨hlo, hup⟩ := (kib_iff _ _ _).mp hkk
      have hlow : ∀ a, lo = some a → bLt k a = false := by
        intro a ha
        exact bLe_trans (hebounds.1 a ha) (hlo e.key rfl)
      have hupper : ∀ b, hi = some b → bLt k b = true := by
        intro b hb
        match hie1 : es[i+1]? with
        | some e2 =>
            have he2mem : e2 ∈ es := by
              obtain ⟨hlt, hval⟩ := List.getElem?_eq_some.mp hie1
              rw [← hval]
              exact List.getElem_mem hlt
            have he2b := (kib_iff _ _ _).mp (hbounds e2 he2mem)
            have h1 : bLt k e2.key = true := by
              have := hup
              rw [hie1] at this
              exact this e2.key rfl
            exact bLt_trans h1 (he2b.2 b hb)
        | none =>
            have := hup
            rw [hie1] at this
            exact this b hb
      have : keyInBoundsB k lo hi = true := by
        rw [kib_iff]
        exact ⟨hlow, hupper⟩
      rw [this] at hex
      cases hex

/-- Keys of a leaf inside an interval that excludes `k` differ from `k`. -/
theorem excluded_leaf_keys (disk : Nat → Option PageM) (k : List Nat)
    (fI p : Nat) (lo hi : Option (List Nat)) (v : Nat) (ts : List TupleM)
    (hinv : TreeInv disk fI p lo hi) (hp : disk p = some (.leaf v ts))
    (hex : keyInBoundsB k lo hi = false) : ∀ t ∈ ts, t.key ≠ k := by
  intro t hmem heq
  have := (treeInv_leaf disk fI p lo hi v ts hinv hp).2 t hmem
  rw [heq] at this
  rw [this] at hex
  cases hex

/-- Descending for `k` inside a subtree whose interval excludes `k` reaches
a leaf none of whose keys is `k`. -/
theorem excluded_descend (disk : Nat → Option PageM) (k : List Nat) :
    ∀ fI p lo hi d acc fuelD, TreeInv disk fI p lo hi →
    keyInBoundsB k lo hi = false → disk p = some (.dir d) → fI ≤ fuelD →
    ∃ ds q v ts, descendD disk k fuelD d acc = some (acc ++ ds, q, v, ts) ∧
      ∀ t ∈ ts, t.key ≠ k := by
  intro fI
  induction fI with
  | zero =>
      intro p lo hi d acc fuelD h
      exact absurd h (by rw [TreeInv]; exact fun h => h)
  | succ fuel ih =>
      intro p lo hi d acc fuelD hinv hex hp hf
      obtain ⟨_, _, _, _, hsort, hbounds, hleftInv, hchildInv⟩ :=
        treeInv_dir disk (fuel + 1) p lo hi d hinv hp
      obtain ⟨np, hnp⟩ := dirRoute_total d k hsort
      have hchild : ∃ lo2 hi2, TreeInv disk fuel np lo2 hi2 ∧
          keyInBoundsB k lo2 hi2 = false := by
        rcases dirRoute_mem d k np hnp with hcl | ⟨e, hmem, hc⟩
        · refine ⟨lo, _, by rw [← hcl] at hleftInv; exact hleftInv, ?_⟩
          exact excl_left k lo hi d.entries
            (fun e he => (hbounds e he).1) hex
        · obtain ⟨i, hiE⟩ : ∃ i, d.entries[i]? = some e := by
            obtain ⟨i, hlt, hval⟩ := List.getElem_of_mem hmem
            exact ⟨i, by rw [List.getElem?_eq_getElem hlt, hval]⟩
          refine ⟨some e.key, _, by rw [hc]; exact hchildInv i e hiE, ?_⟩
          exact excl_entry k lo hi d.entries i e hiE
            (fun x hx => (hbounds x hx).1) hex
      obtain ⟨lo2, hi2, hinv2, hex2⟩ := hchild
      match fuelD, hf with
      | fD + 1, hf =>
          match hnp2 : disk np with
          | none => exact absurd hnp2 (treeInv_ne_none disk fuel np lo2 hi2 hinv2)
          | some (.leaf v ts) =>
              refine ⟨[d], np, v, ts, ?_, ?_⟩
              · rw [descendD, hnp]
                simp only []
                rw [hnp2]
              · exact excluded_leaf_keys disk k fuel np lo2 hi2 v ts hinv2
                  hnp2 hex2
          | some (.dir d2) =>
              obtain ⟨ds2, q, v, ts, hds2, hkeys⟩ :=
                ih np lo2 hi2 d2 (acc ++ [d]) fD hinv2 hex2 hnp2 (by omega)
              refine ⟨d :: ds2, q, v, ts, ?_, hkeys⟩
              rw [descendD, hnp]
              simp only []
              rw [hnp2]
              simp only []
              rw [hds2, List.append_assoc]
              rfl

/-- More fuel never changes a successful descent. -/
theorem descend_mono (disk : Nat → Option PageM) (k : List Nat) :
    ∀ fuel fuel' d acc res, fuel ≤ fuel' →
    descendD disk k fuel d acc = some res →
    descendD disk k fuel' d acc = some res := by
  intro fuel
  induction fuel with
  | zero => intro fuel' d acc res _ h; cases h
  | succ fuel ih =>
      intro fuel' d acc res hf h
      rw [descendD] at h
      match fuel', hf with
      | fL + 1, hf =>
          rw [descendD]
          match hnp : dirGetNextPage d k with
          | none => rw [hnp] at h; cases h
          | some np =>
              rw [hnp] at h
              simp only [] at h
              simp only []
              match hnp2 : disk np with
              | none => rw [hnp2] at h; cases h
              | some (.leaf v ts) =>
                  rw [hnp2] at h
                  simp only [] at h
                  exact h
              | some (.dir d2) =>
                  rw [hnp2] at h
                  simp only [] at h
                  exact ih fL d2 (acc ++ [d]) res (by omega) h

/-- Descent plus trim: descending from a well-formed directory produces a
stack of sorted pages extending the accumulator, whose length fits the
fuel; trimming the reversed stack (with any continuation of shallower
pages appended) either empties every stacked page and proceeds into the
continuation with this subtree's page number, or stops at a surviving page
that can route `k` only into sibling subtrees whose key intervals exclude
`k`. -/
theorem descend_trim (disk : Nat → Option PageM) (k : List Nat) :
    ∀ fuelD fI p lo hi d acc stack q v ts,
    TreeInv disk fI p lo hi → disk p = some (.dir d) →
    descendD disk k fuelD d acc = some (stack, q, v, ts) →
    disk q = some (.leaf v ts) ∧
    ∃ ds, stack = acc ++ ds ∧ ds ≠ [] ∧ ds.length ≤ fuelD ∧
      (∀ x ∈ ds, x.entries.Pairwise (fun a b => bLt a.key b.key = true)) ∧
      ∀ l2,
        (trimStack k (ds.reverse ++ l2) q = trimStack k l2 p) ∨
        (∃ d1 rest1, trimStack k (ds.reverse ++ l2) q =
            some (some (d1, rest1 ++ l2)) ∧
          rest1.length < ds.length ∧
          d1.left ≠ 0 ∧
          d1.entries.Pairwise (fun a b => bLt a.key b.key = true) ∧
          (∀ x ∈ rest1,
            x.entries.Pairwise (fun a b => bLt a.key b.key = true)) ∧
          (∀ c, dirGetNextPage d1 k = some c →
            ∃ fc lo2 hi2, TreeInv disk fc c lo2 hi2 ∧
              keyInBoundsB k lo2 hi2 = false ∧ fc < fI)) := by
  intro fuelD
  induction fuelD with
  | zero =>
      intro fI p lo hi d acc stack q v ts _ _ h
      cases h
  | succ fD ih =>
      intro fI p lo hi d acc stack q v ts hinv hp h
      obtain ⟨hfI, hdpno, hleftnz, hnodup, hsort, hbounds, hleftInv,
        hchildInv⟩ := treeInv_dir disk fI p lo hi d hinv hp
      rw [descendD] at h
      match hnp : dirGetNextPage d k with
      | none => rw [hnp] at h; cases h
      | some np =>
          rw [hnp] at h
          simp only [] at h
          -- one trimming step at `d`, the dead child being `np`
          have hstep : (∀ l2, trimStack k (d :: l2) np = trimStack k l2 p) ∨
              (∃ d1, (∀ l2, trimStack k (d :: l2) np = some (some (d1, l2))) ∧
                d1.left ≠ 0 ∧
                d1.entries.Pairwise (fun a b => bLt a.key b.key = true) ∧
                (∀ c, dirGetNextPage d1 k = some c →
                  ∃ fc lo2 hi2, TreeInv disk fc c lo2 hi2 ∧
                    keyInBoundsB k lo2 hi2 = false ∧ fc < fI)) := by
            obtain ⟨d1, hrem, hpno, hempcase, hnonempcase⟩ :=
              dirRemove_route_excluded d k np hsort hnodup hleftnz
                (fun e he => (hbounds e he).2) hnp
            by_cases hdE : d.entries = []
            · left
              intro l2
              rw [trimStack, hrem]
              simp only []
              have hemp : dirIsEmpty d1 = true := by
                simp [dirIsEmpty, hempcase hdE]
              rw [hemp]
              simp only [if_true]
              rw [hpno, hdpno]
            · right
              obtain ⟨hlz, hsort1, hroutes⟩ := hnonempcase hdE
              refine ⟨d1, ?_, hlz, hsort1, ?_⟩
              · intro l2
                rw [trimStack, hrem]
                simp only []
                have hemp : dirIsEmpty d1 = false := by
                  simp [dirIsEmpty, hlz]
                rw [hemp]
                simp only [Bool.false_eq_true, if_false]
              · intro c hc
                rcases hroutes c hc with ⟨hcl, e0, hhead, hkf⟩ |
                  ⟨j, ej, hjE, hc', hp2⟩
                · have hinvL := hleftInv
                  rw [hhead] at hinvL
                  simp only [] at hinvL
                  exact ⟨fI - 1, lo, some e0.key,
                    by rw [hcl]; exact hinvL,
                    kib_upper_false k e0.key lo hkf, by omega⟩
                · have hinvC := hchildInv j ej hjE
                  rcases hp2 with ⟨ej1, hj1E, hkf⟩ | hklt
                  · rw [hj1E] at hinvC
                    simp only [] at hinvC
                    exact ⟨fI - 1, some ej.key, some ej1.key,
                      by rw [hc']; exact hinvC,
                      kib_upper_false k ej1.key _ hkf, by omega⟩
                  · exact ⟨fI - 1, some ej.key, _,
                      by rw [hc']; exact hinvC,
                      kib_lower_false k ej.key _ hklt, by omega⟩
          match hnp2 : disk np with
          | none => rw [hnp2] at h; cases h
          | some (.leaf v2 ts2) =>
              rw [hnp2] at h
              simp only [Option.some.injEq, Prod.mk.injEq] at h
              obtain ⟨hstack, hq, hv, hts⟩ := h
              refine ⟨by rw [← hq, hnp2, hv, hts], [d], hstack.symm,
                by simp, by simp, ?_, ?_⟩
              · intro x hx
                rw [List.mem_singleton.mp hx]
                exact hsort
              · intro l2
                have : ([d].reverse ++ l2) = d :: l2 := by simp
                rw [this, ← hq]
                rcases hstep with hL | ⟨d1, htrim, hlz, hsort1, hroutes⟩
                · left; exact hL l2
                · right
                  exact ⟨d1, [], by rw [htrim l2]; rfl, by simp, hlz,
                    hsort1, by simp, hroutes⟩
          | some (.dir d2) =>
              rw [hnp2] at h
              simp only [] at h
              -- the routed child's own invariant
              have hchild : ∃ lo2 hi2, TreeInv disk (fI - 1) np lo2 hi2 := by
                rcases dirRoute_mem d k np hnp with hcl | ⟨e, hmem, hc⟩
                · exact ⟨lo, _, by rw [← hcl] at hleftInv; exact hleftInv⟩
                · obtain ⟨i, hiE⟩ : ∃ i, d.entries[i]? = some e := by
                    obtain ⟨i, hlt, hval⟩ := List.getElem_of_mem hmem
                    exact ⟨i, by rw [List.getElem?_eq_getElem hlt, hval]⟩
                  exact ⟨some e.key, _, by rw [hc]; exact hchildInv i e hiE⟩
              obtain ⟨lo2, hi2, hinv2⟩ := hchild
              obtain ⟨hqleaf, ds2, hstack2, hne2, hlen2, hsort2, htrim2⟩ :=
                ih (fI - 1) np lo2 hi2 d2 (acc ++ [d]) stack q v ts
                  hinv2 hnp2 h
              refine ⟨hqleaf, d :: ds2, ?_, by simp, ?_, ?_, ?_⟩
              · rw [hstack2, List.append_assoc]
                rfl
              · simp only [List.length_cons]
                omega
              · intro x hx
                rcases List.mem_cons.mp hx with hx | hx
                · rw [hx]; exact hsort
                · exact hsort2 x hx
              · intro l2
                have hrev : ((d :: ds2).reverse ++ l2) =
                    ds2.reverse ++ ([d] ++ l2) := by
                  rw [List.reverse_cons, List.append_assoc]
                rw [hrev]
                rcases htrim2 ([d] ++ l2) with hL | ⟨d1', rest1', htrim',
                  hlen', hlz', hsort1', hrsort', hroutes'⟩
                · -- everything below `d` emptied; now process `d` itself
                  rw [hL]
                  rcases hstep with hL2 | ⟨d1, htrim, hlz, hsort1, hroutes⟩
                  · left; exact hL2 l2
                  · right
                    exact ⟨d1, [], htrim l2, by simp, hlz,
                      hsort1, by simp, hroutes⟩
                · right
                  refine ⟨d1', rest1' ++ [d], ?_, ?_, hlz', hsort1', ?_, ?_⟩
                  · rw [htrim']
                    rw [List.append_assoc]
                  · simp only [List.length_append, List.length_cons,
                      List.length_nil]
                    omega
                  · intro x hx
                    rcases List.mem_append.mp hx with hx | hx
                    · exact hrsort' x hx
                    · rw [List.mem_singleton.mp hx]
                      exact hsort
                  · intro c hc
                    obtain ⟨fc, lo3, hi3, hi3inv, hex3, hfc⟩ := hroutes' c hc
                    exact ⟨fc, lo3, hi3, hi3inv, hex3, by omega⟩

/-- A delete on a state whose root routes `k` down a directory chain to a
leaf without `k` returns `false` and the state untouched. -/
theorem second_delete_nodel (disk' : Nat → Option PageM) (k : List Nat)
    (alloc2 : Nat → Nat) (fuel2 root' leafP ver lv : Nat) (ts' : List TupleM)
    (m : Nat) (hm : 0 < m) (hmf : m ≤ fuel2)
    (hroute : RouteTo disk' k m root' leafP)
    (hleaf : disk' leafP = some (.leaf lv ts'))
    (habsent : ∀ t ∈ ts', t.key ≠ k) :
    dbDelete alloc2 fuel2 ⟨disk', root', ver⟩ k =
      some (⟨disk', root', ver⟩, false) := by
  match m, hm with
  | n + 1, _ =>
      have hroute' := hroute
      obtain ⟨dtop, hdtop, _⟩ := hroute'
      obtain ⟨ds3, hd3⟩ := route_descend disk' k lv ts' n fuel2 dtop root'
        leafP [] (by omega) hroute hdtop hleaf
      rw [dbDelete]
      simp only []
      rw [hdtop]
      simp only []
      rw [hd3]
      simp only []
      rw [leafDeleteKeyM_absent ts' k habsent]

/-- A delete on a state whose root routes `k` down a chain to a trimmed
directory that can only route `k` into subtrees excluding `k` returns
`false` and the state untouched. -/
theorem second_delete_pagedel (disk' : Nat → Option PageM) (k : List Nat)
    (alloc2 : Nat → Nat) (fuel2 root' p1 ver : Nat) (d1 : DirPage) (m : Nat)
    (hm : m + 1 ≤ fuel2)
    (hroute : RouteTo disk' k m root' p1)
    (hd1 : disk' p1 = some (.dir d1))
    (hsort1 : d1.entries.Pairwise (fun a b => bLt a.key b.key = true))
    (hex : ∀ c, dirGetNextPage d1 k = some c →
      ∃ fc lo2 hi2, TreeInv disk' fc c lo2 hi2 ∧
        keyInBoundsB k lo2 hi2 = false ∧ m + 1 + fc ≤ fuel2) :
    dbDelete alloc2 fuel2 ⟨disk', root', ver⟩ k =
      some (⟨disk', root', ver⟩, false) := by
  have hrootdir : ∃ dtop, disk' root' = some (.dir dtop) := by
    match m, hroute with
    | 0, hroute =>
        rw [RouteTo] at hroute
        rw [hroute]
        exact ⟨d1, hd1⟩
    | n + 1, hroute =>
        obtain ⟨dtop, hdtop, _⟩ := hroute
        exact ⟨dtop, hdtop⟩
  obtain ⟨dtop, hdtop⟩ := hrootdir
  obtain ⟨ds3, hskip⟩ := route_descend_dir disk' k d1 m fuel2 dtop root' p1 []
    (by omega) hroute hdtop hd1
  obtain ⟨c, hcr⟩ := dirRoute_total d1 k hsort1
  obtain ⟨fc, lo2, hi2, hcinv, hcex, hfb⟩ := hex c hcr
  have hdescRest : ∃ stk q v4 ts4,
      descendD disk' k (fuel2 - m) d1 ([] ++ ds3) = some (stk, q, v4, ts4) ∧
      ∀ t ∈ ts4, t.key ≠ k := by
    match hf2 : fuel2 - m, (show 0 < fuel2 - m by omega) with
    | f2 + 1, _ =>
        match hcp : disk' c with
        | none => exact absurd hcp (treeInv_ne_none disk' fc c lo2 hi2 hcinv)
        | some (.leaf vc tsc) =>
            refine ⟨([] ++ ds3) ++ [d1], c, vc, tsc, ?_, ?_⟩
            · rw [descendD, hcr]
              simp only []
              rw [hcp]
            · exact excluded_leaf_keys disk' k fc c lo2 hi2 vc tsc hcinv
                hcp hcex
        | some (.dir dc) =>
            obtain ⟨ds4, q, v4, ts4, hds4, hkeys4⟩ :=
              excluded_descend disk' k fc c lo2 hi2 dc (([] ++ ds3) ++ [d1])
                f2 hcinv hcex hcp (by omega)
            refine ⟨(([] ++ ds3) ++ [d1]) ++ ds4, q, v4, ts4, ?_, hkeys4⟩
            rw [descendD, hcr]
            simp only []
            rw [hcp]
            simp only []
            rw [hds4]
  obtain ⟨stk, q, v4, ts4, hdesc2, habs4⟩ := hdescRest
  rw [dbDelete]
  simp only []
  rw [hdtop]
  simp only []
  rw [hskip, hdesc2]
  simp only []
  rw [leafDeleteKeyM_absent ts4 k habs4]

/-- C9.  Delete idempotence and atomicity on absence: on a well-formed
database state, running `delete(k)` twice leaves the same state as running
it once — the second delete returns `false` and the state it returns is
exactly the state it was given (no page written, no master flip, no version
bump), and when the first delete already returned `false` the first state
equals the original.  Hypotheses: the tree from the current root satisfies
the structural invariant with height bound `fI`, and the page numbers the
free-page tracker hands out are pairwise distinct, nonzero, and absent
from the page-cache view (copy-on-write freshness). -/
theorem delete_delete_idempotent
    (s : DState) (k : List Nat) (alloc alloc2 : Nat → Nat) (fD fI : Nat)
    (hwf : TreeInv s.disk fI s.root none none)
    (hfresh : ∀ i, s.disk (alloc i) = none)
    (hinj : ∀ i j, alloc i = alloc j → i = j)
    (hnz : ∀ i, alloc i ≠ 0)
    (s1 : DState) (b : Bool)
    (h1 : dbDelete alloc fD s k = some (s1, b)) :
    dbDelete alloc2 (fD + fI) s1 k = some (s1, false) ∧
      (b = false → s1 = s) := by
  rw [dbDelete] at h1
  match hroot : s.disk s.root with
  | none => rw [hroot] at h1; cases h1
  | some (.leaf v ts) =>
      rw [hroot] at h1
      simp only [] at h1
      rw [leafDeleteKeyM] at h1
      match hget : leafGetTupleM ts k with
      | none => rw [hget] at h1; cases h1
      | some none =>
          rw [hget] at h1
          simp only [Option.some.injEq, Prod.mk.injEq] at h1
          obtain ⟨hs1, hb⟩ := h1
          subst hs1
          refine ⟨?_, fun _ => rfl⟩
          rw [dbDelete, hroot]
          simp only []
          rw [leafDeleteKeyM, hget]
      | some (some t0) =>
          rw [hget] at h1
          simp only [Option.some.injEq, Prod.mk.injEq] at h1
          obtain ⟨hs1, hb⟩ := h1
          subst hs1
          refine ⟨?_, fun hbf => by rw [← hb] at hbf; cases hbf⟩
          have habsent : ∀ t ∈ ts.filter (fun x => decide (x.key ≠ k)),
              t.key ≠ k := by
            intro t ht
            have := (List.mem_filter.mp ht).2
            simpa using this
          rw [dbDelete]
          simp only []
          have hd1 : diskPut s.disk (alloc 0)
              (.leaf (s.version + 1) (ts.filter (fun x => decide (x.key ≠ k))))
              (alloc 0) =
              some (.leaf (s.version + 1)
                (ts.filter (fun x => decide (x.key ≠ k)))) := by
            rw [diskPut]
            simp
          rw [hd1]
          simp only []
          rw [leafDeleteKeyM_absent _ k habsent]
  | some (.dir d0) =>
      rw [hroot] at h1
      simp only [] at h1
      match hdesc : descendD s.disk k fD d0 [] with
      | none => rw [hdesc] at h1; cases h1
      | some (stack, leafNo, lv, ts) =>
          rw [hdesc] at h1
          simp only [] at h1
          obtain ⟨hqleaf, ds, hstackds, hdsne, hdslen, hdssort, htrim⟩ :=
            descend_trim s.disk k fD fI s.root none none d0 [] stack leafNo
              lv ts hwf hroot hdesc
          have hstack_eq : stack = ds := by rw [hstackds]; rfl
          rw [leafDeleteKeyM] at h1
          match hget : leafGetTupleM ts k with
          | none => rw [hget] at h1; cases h1
          | some none =>
              rw [hget] at h1
              simp only [Option.some.injEq, Prod.mk.injEq] at h1
              obtain ⟨hs1, hb⟩ := h1
              subst hs1
              refine ⟨?_, fun _ => rfl⟩
              rw [dbDelete, hroot]
              simp only []
              rw [descend_mono s.disk k fD (fD + fI) d0 []
                (stack, leafNo, lv, ts) (by omega) hdesc]
              simp only []
              rw [leafDeleteKeyM, hget]
          | some (some t0) =>
              rw [hget] at h1
              simp only [] at h1
              have habsent : ∀ t ∈ ts.filter (fun x => decide (x.key ≠ k)),
                  t.key ≠ k := by
                intro t ht
                have := (List.mem_filter.mp ht).2
                simpa using this
              by_cases hempty :
                  ts.filter (fun x => decide (x.key ≠ k)) = []
              · rw [if_pos hempty] at h1
                rcases htrim [] with hL | ⟨d1, rest1, htr1, hlen1, hlz1,
                    hsort1, hrsort1, hroutes1⟩
                · -- the whole stack emptied: the new root is an empty leaf
                  rw [List.append_nil] at hL
                  rw [← hstack_eq] at hL
                  rw [hL] at h1
                  simp only [trimStack] at h1
                  simp only [Option.some.injEq, Prod.mk.injEq] at h1
                  obtain ⟨hs1, hb⟩ := h1
                  subst hs1
                  refine ⟨?_, fun hbf => by rw [← hb] at hbf; cases hbf⟩
                  rw [dbDelete]
                  simp only []
                  have hd1 : diskPut s.disk (alloc 0)
                      (.leaf (s.version + 1) []) (alloc 0) =
                      some (.leaf (s.version + 1) []) := by
                    rw [diskPut]
                    simp
                  rw [hd1]
                  simp only []
                  rw [leafDeleteKeyM_absent [] k (fun t ht => nomatch ht)]
                · -- the stack survives from `d1` upward: rewrite that chain
                  rw [List.append_nil, List.append_nil] at htr1
                  rw [← hstack_eq] at htr1
                  rw [htr1] at h1
                  simp only [] at h1
                  rw [fixDirStackGo] at h1
                  rw [if_pos rfl] at h1
                  rw [fixDirStack_eq_fixNoDel alloc (s.version + 1) k hnz
                    rest1 (0 + 1) (alloc 0) _ (hnz 0)] at h1
                  obtain ⟨root', disk', heq, hroute, hpres⟩ :=
                    fixNoDel_spec alloc (s.version + 1) k hinj rest1 (0 + 1)
                      (alloc 0)
                      (diskPut s.disk (alloc 0)
                        (.dir { d1 with pageNo := alloc 0, version := s.version + 1 }))
                      hrsort1
                  rw [heq] at h1
                  simp only [Option.some.injEq, Prod.mk.injEq] at h1
                  obtain ⟨hs1, hb⟩ := h1
                  subst hs1
                  refine ⟨?_, fun hbf => by rw [← hb] at hbf; cases hbf⟩
                  -- the written trimmed page survives the upper rewrites
                  have hd1w : disk' (alloc 0) =
                      some (.dir { d1 with pageNo := alloc 0, version := s.version + 1 }) := by
                    rw [hpres (alloc 0) (fun j hj h => by
                      have := hinj _ _ h
                      omega)]
                    rw [diskPut]
                    simp
                  have hold : ∀ p, s.disk p ≠ none → disk' p = s.disk p := by
                    intro p hp
                    have hne : ∀ j, p ≠ alloc j := by
                      intro j h
                      rw [h] at hp
                      exact hp (hfresh j)
                    rw [hpres p (fun j _ => hne j)]
                    rw [diskPut]
                    simp only [ite_eq_right_iff]
                    intro h
                    exact absurd h (hne 0)
                  refine second_delete_pagedel disk' k alloc2 (fD + fI) root'
                    (alloc 0) (s.version + 1)
                    { d1 with pageNo := alloc 0, version := s.version + 1 }
                    rest1.length (by omega) hroute hd1w hsort1 ?_
                  intro c hc
                  obtain ⟨fc, lo2, hi2, hcinv, hcex, hfc⟩ := hroutes1 c hc
                  refine ⟨fc, lo2, hi2,
                    treeInv_ext s.disk disk' hold fc c lo2 hi2 hcinv,
                    hcex, by omega⟩
              · rw [if_neg hempty] at h1
                have hsortrev : ∀ x ∈ stack.reverse,
                    x.entries.Pairwise (fun a b => bLt a.key b.key = true) := by
                  intro x hx
                  apply hdssort
                  rw [← hstack_eq]
                  exact List.mem_reverse.mp hx
                obtain ⟨root', disk', heq, hroute, hpres⟩ :=
                  fixNoDel_spec alloc (s.version + 1) k hinj stack.reverse 1
                    (alloc 0)
                    (diskPut s.disk (alloc 0)
                      (.leaf (s.version + 1)
                        (ts.filter (fun x => decide (x.key ≠ k)))))
                    hsortrev
                rw [heq] at h1
                simp only [Option.some.injEq, Prod.mk.injEq] at h1
                obtain ⟨hs1, hb⟩ := h1
                subst hs1
                refine ⟨?_, fun hbf => by rw [← hb] at hbf; cases hbf⟩
                have hleaf0 : disk' (alloc 0) =
                    some (.leaf (s.version + 1)
                      (ts.filter (fun x => decide (x.key ≠ k)))) := by
                  rw [hpres (alloc 0) (fun j hj h => by
                    have := hinj _ _ h
                    omega)]
                  rw [diskPut]
                  simp
                have hm1 : 0 < stack.reverse.length := by
                  rw [List.length_reverse, hstack_eq]
                  cases hds : ds with
                  | nil => exact absurd hds hdsne
                  | cons a l => simp
                have hm2 : stack.reverse.length ≤ fD + fI := by
                  rw [List.length_reverse, hstack_eq]
                  omega
                exact second_delete_nodel disk' k alloc2 (fD + fI) root'
                  (alloc 0) (s.version + 1) (s.version + 1)
                  (ts.filter (fun x => decide (x.key ≠ k)))
                  stack.reverse.length hm1 hm2 hroute hleaf0 habsent

def wDisk : Nat → Option PageM :=
  fun p => if p = 5 then some (.leaf 1 [⟨[7], [1], 1, 0⟩]) else none

def wS : DState := ⟨wDisk, 5, 3⟩

def wS1 : DState := ⟨diskPut wDisk 12 (.leaf 4 []), 12, 4⟩

theorem delete_delete_idempotent_witness :
    dbDelete (fun i => i + 12) 2 wS [7] = some (wS1, true) ∧
    dbDelete (fun i => i + 24) 3 wS1 [7] = some (wS1, false) := by
  have h1 : dbDelete (fun i => i + 12) 2 wS [7] = some (wS1, true) := rfl
  have hwf : TreeInv wS.disk 1 wS.root none none :=
    ⟨by decide, by decide, by decide⟩
  have h := delete_delete_idempotent wS [7] (fun i => i + 12)
    (fun i => i + 24) 2 1 hwf
    (by
      intro i
      show wDisk (i + 12) = none
      simp only [wDisk]
      rw [if_neg (by omega)])
    (by
      intro i j hij
      have hij' : i + 12 = j + 12 := hij
      omega)
    (by
      intro i
      show i + 12 ≠ 0
      omega)
    wS1 true h1
  exact ⟨h1, h.1⟩

/-! ### `Db::create_table` -/

/-- Serialized size of a tuple (`Tuple::new`: u16 key len, u16 value len,
8-byte version holder, key, value). -/
def tupleSizeM (t : TupleM) : Nat :=
  2 + 2 + 8 + t.key.length + t.value.length

/-- Bytes used by the tuples and their 2-byte slots. -/
def leafUsedM (ts : List TupleM) : Nat :=
  (ts.map (fun t => tupleSizeM t + 2)).sum

/-- `TreeLeafPage::can_fit` against the 20-byte header. -/
def leafCanFitM (pageSize : Nat) (ts : List TupleM) (t : TupleM) : Bool :=
  tupleSizeM t + 2 ≤ pageSize - 20 - leafUsedM ts

/-- The `sort_by` comparator of `build_sorted_tuples`: ascending by key. -/
def tupleLeM (a b : TupleM) : Bool :=
  ! bLt b.key a.key

/-- `TreeLeafPage::store_tuple` at tuple level: drop tuples with the same
key, add the new tuple, sort (stably) by key. -/
def leafStoreTupleM (ts : List TupleM) (t : TupleM) : List TupleM :=
  sortByLe tupleLeM (ts.filter (fun x => decide (x.key ≠ t.key)) ++ [t])

/-- `Db::create_table` for a table directory whose root is a single leaf
(the configuration the repository's tests exercise; a directory root takes
the same store path as the tree): no existence check is made (the code
carries a `TODO check if table exists`); a fresh empty leaf is allocated
and written as the new table's root, a tuple `name ↦ page number` is stored
into the table directory — replacing any tuple with the same key — the
rewritten directory gets a fresh page number, and the master is updated to
it with the bumped version.  `none` models the asserts and the unmodelled
leaf-split continuation. -/
def createTable (alloc : Nat → Nat) (pageSize : Nat) (s : DState)
    (name : List Nat) : Option DState :=
  if 255 ≤ name.length then none
  else
    let newV := s.version + 1
    let newRoot := alloc 0
    let disk1 := diskPut s.disk newRoot (.leaf newV [])
    let t : TupleM := ⟨name, leBytes 4 newRoot, newV, 0⟩
    match disk1 s.root with
    | some (.leaf _ ts) =>
        match leafGetTupleM ts name with
        | none => none
        | some _ =>
            if leafCanFitM pageSize ts t then
              some { disk := diskPut disk1 (alloc 1)
                       (.leaf newV (leafStoreTupleM ts t)),
                     root := alloc 1, version := newV }
            else
              match leafDeleteKeyM ts name with
              | some (some (_, tsDel)) =>
                  if leafCanFitM pageSize tsDel t then
                    some { disk := diskPut disk1 (alloc 1)
                             (.leaf newV (leafStoreTupleM tsDel t)),
                           root := alloc 1, version := newV }
                  else none
              | _ => none
    | _ => none

theorem mem_insertLe (le : α → α → Bool) (a x : α) :
    ∀ l, x ∈ insertLe le a l ↔ x = a ∨ x ∈ l := by
  intro l
  induction l with
  | nil => simp [insertLe]
  | cons b bs ih =>
      rw [insertLe]
      by_cases h : le b a = true
      · rw [if_pos h]
        rw [List.mem_cons, ih, List.mem_cons]
        tauto
      · rw [if_neg h]
        rw [List.mem_cons, List.mem_cons]

theorem mem_sortByLe (le : α → α → Bool) (x : α) (l : List α) :
    x ∈ sortByLe le l ↔ x ∈ l := by
  have hgen : ∀ (l2 acc : List α),
      x ∈ List.foldl (fun acc a => insertLe le a acc) acc l2 ↔
      x ∈ acc ∨ x ∈ l2 := by
    intro l2
    induction l2 with
    | nil => intro acc; simp
    | cons b bs ih =>
        intro acc
        rw [List.foldl_cons, ih, mem_insertLe, List.mem_cons]
        tauto
  rw [sortByLe, hgen l []]
  simp

/-- C10.  `create_table` on an existing name is not rejected and is not a
no-op: when the table directory (here a single leaf) already holds an
entry for the name, `create_table` succeeds, allocates a fresh empty leaf
as the new table's root, replaces the directory entry for the name with
the new leaf's page number, and commits a new directory root under a
bumped version — so the name no longer leads to the previous table's root
page, whose contents become unreachable from the new master. -/
theorem create_table_overwrites_existing
    (s : DState) (name : List Nat) (alloc : Nat → Nat) (pageSize : Nat)
    (v oldRoot : Nat) (ts : List TupleM) (tOld : TupleM)
    (hname : name.length < 255)
    (hroot : s.disk s.root = some (.leaf v ts))
    (hfresh : ∀ i, s.disk (alloc i) = none)
    (hinj : ∀ i j, alloc i = alloc j → i = j)
    (hexists : leafGetTupleM ts name = some (some tOld))
    (hOldVal : tOld.value = leBytes 4 oldRoot)
    (hOldLive : s.disk oldRoot ≠ none)
    (hb1 : oldRoot < 256 ^ 4) (hb2 : alloc 0 < 256 ^ 4)
    (hfits : leafCanFitM pageSize ts
      ⟨name, leBytes 4 (alloc 0), s.version + 1, 0⟩ = true) :
    ∃ s', createTable alloc pageSize s name = some s' ∧
      s'.version = s.version + 1 ∧
      s'.root = alloc 1 ∧ s'.root ≠ s.root ∧
      s'.disk (alloc 0) = some (.leaf (s.version + 1) []) ∧
      alloc 0 ≠ oldRoot ∧
      ∃ ts', s'.disk s'.root = some (.leaf (s.version + 1) ts') ∧
        (∃ t', t' ∈ ts' ∧ t'.key = name ∧
          t'.value = leBytes 4 (alloc 0)) ∧
        (∀ t' ∈ ts', t'.key = name → t'.value = leBytes 4 (alloc 0)) ∧
        tOld ∉ ts' := by
  have hrootne : ∀ i, s.root ≠ alloc i := by
    intro i h
    rw [h, hfresh i] at hroot
    cases hroot
  have hnewne : alloc 0 ≠ oldRoot := by
    intro h
    rw [← h, hfresh 0] at hOldLive
    exact hOldLive rfl
  have hvalne : leBytes 4 (alloc 0) ≠ tOld.value := by
    rw [hOldVal]
    intro h
    have := congrArg fromLE h
    rw [fromLE_leBytes 4 (alloc 0) hb2, fromLE_leBytes 4 oldRoot hb1] at this
    exact hnewne this
  have hd1root : diskPut s.disk (alloc 0) (.leaf (s.version + 1) []) s.root =
      some (.leaf v ts) := by
    rw [diskPut]
    rw [if_neg (hrootne 0)]
    exact hroot
  have hrun : createTable alloc pageSize s name =
      some { disk := diskPut (diskPut s.disk (alloc 0)
               (.leaf (s.version + 1) [])) (alloc 1)
               (.leaf (s.version + 1) (leafStoreTupleM ts
                 ⟨name, leBytes 4 (alloc 0), s.version + 1, 0⟩)),
             root := alloc 1, version := s.version + 1 } := by
    rw [createTable]
    rw [if_neg (by omega)]
    simp only []
    rw [hd1root]
    simp only []
    rw [hexists]
    simp only []
    rw [if_pos hfits]
  refine ⟨_, hrun, rfl, rfl, (hrootne 1).symm, ?_, hnewne, leafStoreTupleM ts
    ⟨name, leBytes 4 (alloc 0), s.version + 1, 0⟩, ?_, ?_, ?_, ?_⟩
  · show diskPut (diskPut s.disk (alloc 0) (.leaf (s.version + 1) []))
      (alloc 1) _ (alloc 0) = _
    rw [diskPut]
    rw [if_neg (fun h => by have := hinj _ _ h; omega)]
    rw [diskPut]
    simp
  · show diskPut _ (alloc 1) _ (alloc 1) = _
    rw [diskPut]
    simp
  · refine ⟨⟨name, leBytes 4 (alloc 0), s.version + 1, 0⟩, ?_, rfl, rfl⟩
    rw [leafStoreTupleM, mem_sortByLe]
    simp
  · intro t' ht' hkey
    rw [leafStoreTupleM, mem_sortByLe] at ht'
    rcases List.mem_append.mp ht' with h | h
    · have := (List.mem_filter.mp h).2
      simp only [decide_eq_true_eq] at this
      exact absurd hkey this
    · rw [List.mem_singleton.mp h]
  · intro hmem
    rw [leafStoreTupleM, mem_sortByLe] at hmem
    rcases List.mem_append.mp hmem with h | h
    · have := (List.mem_filter.mp h).2
      simp only [decide_eq_true_eq] at this
      obtain ⟨hk, _⟩ := leafFindGo_sound ts name _ _ _ _ hexists
      exact this hk
    · have := List.mem_singleton.mp h
      have hv : tOld.value = leBytes 4 (alloc 0) := by rw [this]
      exact hvalne hv.symm

def wCt : DState :=
  ⟨fun p => if p = 5 then some (.leaf 1 [⟨[3], leBytes 4 9, 1, 0⟩])
    else if p = 9 then some (.leaf 1 []) else none, 5, 3⟩

theorem create_table_overwrites_existing_witness :
    ∃ s', createTable (fun i => i + 12) 100 wCt [3] = some s' ∧
      s'.version = wCt.version + 1 ∧
      s'.root = 13 ∧ s'.root ≠ wCt.root ∧
      s'.disk 12 = some (.leaf (wCt.version + 1) []) ∧
      (12 : Nat) ≠ 9 ∧
      ∃ ts', s'.disk s'.root = some (.leaf (wCt.version + 1) ts') ∧
        (∃ t', t' ∈ ts' ∧ t'.key = [3] ∧ t'.value = leBytes 4 12) ∧
        (∀ t' ∈ ts', t'.key = [3] → t'.value = leBytes 4 12) ∧
        (⟨[3], leBytes 4 9, 1, 0⟩ : TupleM) ∉ ts' := by
  exact create_table_overwrites_existing wCt [3] (fun i => i + 12) 100 1 9
    [⟨[3], leBytes 4 9, 1, 0⟩] ⟨[3], leBytes 4 9, 1, 0⟩
    (by decide) rfl
    (by
      intro i
      show (if i + 12 = 5 then some (PageM.leaf 1 [⟨[3], leBytes 4 9, 1, 0⟩])
        else if i + 12 = 9 then some (PageM.leaf 1 []) else none) = none
      rw [if_neg (by omega), if_neg (by omega)])
    (by
      intro i j hij
      have hij' : i + 12 = j + 12 := hij
      omega)
    rfl rfl (by decide) (by norm_num) (by norm_num) (by decide)

end Digby
